import Mathlib

/-
Verification of the kleineGPT model core (`model.py`): a decoder-only
transformer language model with causal self-attention, and its
autoregressive generation loop.

Shallow embedding conventions:
* Tensors are embedded per batch row: a sequence representation is a
  `Mat` (list of per-position vectors over ℚ); a batch is a list of those.
  All batched torch operations in this source act independently on batch
  rows, so the batch dimension is a `List` map.
* Real-valued primitives that ℚ cannot express exactly (exp used by
  softmax, `C ** -0.5`, the reciprocal square root inside LayerNorm, GELU,
  log used by cross-entropy) are abstract parameters collected in `Ops`.
  Properties that depend on them (e.g. positivity of exp) appear as
  explicit hypotheses.
* Runtime failures of the torch code are `Option.none`: embedding lookup
  with an out-of-range index, a linear layer applied to a vector of the
  wrong width, `masked_fill` against a mask slice of mismatched shape,
  and a softmax row whose masked fill leaves no finite entry (which in
  IEEE arithmetic produces a NaN row).  `masked_fill` with `-inf`
  followed by `softmax` is modelled in exact arithmetic: masked entries
  contribute weight 0 (exp(-inf) = 0) and the normalizer sums only the
  kept entries; a zero normalizer is the NaN case, `none`.
* `nn.Dropout` is the identity in inference mode (and when p = 0); all
  claims below concern the deterministic forward pass, so dropout sites
  are embedded as the identity.
-/

namespace KleineGPT

abbrev Vec := List ℚ
abbrev Mat := List Vec

/-- Channel width of a tensor, read from its first row (torch keeps this
in the shape metadata; well-formed tensors are rectangular). -/
def width (m : Mat) : ℕ := (m.headD []).length

/-- Dot product, as the elementwise product-sum of `q @ k.T` entries. -/
def dot (a b : Vec) : ℚ := ((a.zip b).map (fun p => p.1 * p.2)).sum

def addVec (a b : Vec) : Vec := List.zipWith (fun x y => x + y) a b

def addMat (x y : Mat) : Mat := List.zipWith addVec x y

/-- Option-valued map over a list, failing if any element fails
(models a batched torch op that raises on any row). -/
def mapOpt (f : α → Option β) : List α → Option (List β)
  | [] => some []
  | a :: as => (f a).bind fun b => (mapOpt f as).bind fun bs => some (b :: bs)

/-- Option-valued map with the position index supplied to the function. -/
def mapIdxO (f : ℕ → α → Option β) : ℕ → List α → Option (List β)
  | _, [] => some []
  | n, a :: as => (f n a).bind fun b => (mapIdxO f (n+1) as).bind fun bs => some (b :: bs)

/-- Pure map with the position index supplied to the function. -/
def mapIdx (f : ℕ → α → β) : ℕ → List α → List β
  | _, [] => []
  | n, a :: as => f n a :: mapIdx f (n+1) as

/-- `nn.Linear(in, out, bias=False)` applied to one position: torch
checks that the input width equals the weight's input dimension. -/
def linApp (W : Mat) (v : Vec) : Option Vec :=
  if W.all (fun r => r.length == v.length) then some (W.map (fun r => dot r v)) else none

/-- `nn.Linear(in, out)` with bias applied to one position. -/
def linAff (W : Mat) (b : Vec) (v : Vec) : Option Vec :=
  if W.all (fun r => r.length == v.length) then
    some (List.zipWith (fun x y => x + y) (W.map (fun r => dot r v)) b)
  else none

/-- Masked softmax of one attention row: `masked_fill(-inf)` followed by
`F.softmax`.  Masked entries contribute exp(-inf) = 0; if the row keeps no
entry the normalizer is 0 and the torch result is a NaN row (`none`). -/
def maskedSoftmaxRow (e : ℚ → ℚ) (keep : ℕ → Bool) (r : Vec) : Option Vec :=
  let es := mapIdx (fun j s => if keep j then e s else 0) 0 r
  let d := es.sum
  if d = 0 then none else some (es.map (fun z => z / d))

/-- Abstract real-valued primitives used by the model: `exp` (softmax),
`rsqrt n` (the scaling factor `n ** -0.5`), `rstd` (reciprocal square
root applied to variance + eps in LayerNorm), `gelu`, and `log`
(cross-entropy).  They are parameters of the embedding; facts that
depend on them carry explicit hypotheses. -/
structure Ops where
  exp : ℚ → ℚ
  rsqrt : ℕ → ℚ
  rstd : ℚ → ℚ
  gelu : ℚ → ℚ
  log : ℚ → ℚ

/-- The configuration record consumed by the model. -/
structure Config where
  vocab_size : ℕ
  n_embd : ℕ
  n_head : ℕ
  n_layer : ℕ
  block_size : ℕ
  dropout : ℚ

/-- `head_size = n_embd // n_head` as computed in `Block.__init__`
(Python floor division; the `n_head = 0` ZeroDivisionError case is
handled where blocks are constructed). -/
@[reducible] def headSize (cfg : Config) : ℕ := cfg.n_embd / cfg.n_head

/-- One attention head's learned parameters (`key`, `query`, `value`
are `nn.Linear(n_embd, head_size, bias=False)` weights; the `tril`
buffer is determined by `block_size` and kept implicit). -/
structure Head where
  key : Mat
  query : Mat
  value : Mat

/-- Raw affinity scores `q @ k.transpose(-2, -1) * C ** -0.5`, where `C`
is taken from the *input's* channel width (`B,T,C = x.shape`). -/
def attnScores (ν : Ops) (C : ℕ) (q k : Mat) : Mat :=
  q.map (fun qi => k.map (fun kj => dot qi kj * ν.rsqrt C))

/-- `wei @ v` for one output row: `dotCol w v c = Σ_j w_j * v_j[c]`. -/
def dotCol : Vec → Mat → ℕ → ℚ
  | [], _, _ => 0
  | _ :: _, [], _ => 0
  | a :: w, r :: v, c => a * r.getD c 0 + dotCol w v c

/-- One output row of `wei @ v` (width read from `v`, the matmul's
second operand). -/
def weightedSum (w : Vec) (v : Mat) : Vec :=
  (List.range (width v)).map (fun c => dotCol w v c)

/-- `Head.forward`: project to k, q, v; scores scaled by the input
width; causal mask restricted to the top-left `T×T` submatrix of `tril`
(shape check: the mask slice only matches when `T ≤ block_size`);
softmax; dropout (identity in inference); weighted aggregation. -/
def Head.forward (ν : Ops) (block_size : ℕ) (h : Head) (x : Mat) : Option Mat :=
  (mapOpt (linApp h.key) x).bind fun k =>
  (mapOpt (linApp h.query) x).bind fun q =>
  if x.length ≤ block_size then
    (mapIdxO (fun i row => maskedSoftmaxRow ν.exp (fun j => decide (j ≤ i)) row) 0
        (attnScores ν (width x) q k)).bind fun wei =>
    (mapOpt (linApp h.value) x).bind fun v =>
    some (wei.map (fun w => weightedSum w v))
  else none

/-- Multi-head attention parameters (`proj = nn.Linear(n_embd, n_embd)`). -/
structure MultiHeadAttention where
  heads : List Head
  projW : Mat
  projB : Vec

/-- `torch.cat(outs, dim=-1)`: per position, the features of all head
outputs concatenated in order. -/
def catFeat (outs : List Mat) (T : ℕ) : Mat :=
  (List.range T).map (fun t => (outs.map (fun o => o.getD t [])).flatten)

/-- `MultiHeadAttention.forward`: run all heads on the same input,
concatenate along the feature axis (`torch.cat` raises on an empty
list), project, dropout (identity in inference). -/
def MultiHeadAttention.forward (ν : Ops) (block_size : ℕ) (mw : MultiHeadAttention)
    (x : Mat) : Option Mat :=
  if mw.heads.isEmpty then none
  else
    (mapOpt (fun h => Head.forward ν block_size h x) mw.heads).bind fun outs =>
    mapOpt (linAff mw.projW mw.projB) (catFeat outs x.length)

/-- FeedForward parameters: `Linear(n_embd, 4*n_embd)`, GELU,
`Linear(4*n_embd, n_embd)`, dropout. -/
structure FeedForward where
  w1 : Mat
  b1 : Vec
  w2 : Mat
  b2 : Vec

/-- `FeedForward.forward`, applied position-wise. -/
def FeedForward.forward (ν : Ops) (f : FeedForward) (x : Mat) : Option Mat :=
  mapOpt (fun v =>
    (linAff f.w1 f.b1 v).bind fun h1 =>
    linAff f.w2 f.b2 (h1.map ν.gelu)) x

/-- The `eps` of `nn.LayerNorm` (1e-5). -/
def lnEps : ℚ := 1 / 100000

/-- `nn.LayerNorm(n_embd)` parameters. -/
structure LayerNorm where
  weight : Vec
  bias : Vec

/-- LayerNorm on one position: torch checks the last dimension against
`normalized_shape`; then `(x - mean) / sqrt(var + eps) * weight + bias`
with the biased variance. -/
def LayerNorm.forward1 (ν : Ops) (p : LayerNorm) (v : Vec) : Option Vec :=
  if v.length == p.weight.length then
    let n : ℚ := v.length
    let mu := v.sum / n
    let s2 := (v.map (fun z => (z - mu) ^ 2)).sum / n
    some ((v.zip (p.weight.zip p.bias)).map
      (fun q => (q.1 - mu) * ν.rstd (s2 + lnEps) * q.2.1 + q.2.2))
  else none

/-- LayerNorm applied position-wise. -/
def LayerNorm.forward (ν : Ops) (p : LayerNorm) (x : Mat) : Option Mat :=
  mapOpt (LayerNorm.forward1 ν p) x

/-- One transformer block's parameters: `sa`, `ffwd`, and two distinct
LayerNorms `ln1`, `ln2` with independent parameters. -/
structure Block where
  sa : MultiHeadAttention
  ffwd : FeedForward
  ln1 : LayerNorm
  ln2 : LayerNorm

/-- `Block.forward`: `x = x + sa(ln1(x)); x = x + ffwd(ln2(x))`. -/
def Block.forward (ν : Ops) (block_size : ℕ) (b : Block) (x : Mat) : Option Mat :=
  (LayerNorm.forward ν b.ln1 x).bind fun nx =>
  (MultiHeadAttention.forward ν block_size b.sa nx).bind fun a =>
  (LayerNorm.forward ν b.ln2 (addMat x a)).bind fun ny =>
  (FeedForward.forward ν b.ffwd ny).bind fun f =>
  some (addMat (addMat x a) f)

/-- The language model's parameters. -/
structure BigramLanguageModel where
  token_embedding_table : Mat
  position_embedding_table : Mat
  blocks : List Block
  ln_f : LayerNorm
  lm_headW : Mat
  lm_headB : Vec

/-- `nn.Sequential` of the blocks, applied in order. -/
def runBlocks (ν : Ops) (block_size : ℕ) : List Block → Mat → Option Mat
  | [], x => some x
  | b :: rest, x => (Block.forward ν block_size b x).bind (runBlocks ν block_size rest)

/-- `token_embedding_table(idx) + position_embedding_table(arange(T))`:
per position `t`, the token embedding of `idx[t]` (lookup raises when
the id is out of the vocabulary) plus the position embedding of `t`
(lookup raises when `t ≥ block_size`, i.e. when `T > block_size`). -/
def embed (m : BigramLanguageModel) (ts : List ℕ) : Option Mat :=
  mapIdxO (fun t tok =>
    (m.token_embedding_table[tok]?).bind fun te =>
    (m.position_embedding_table[t]?).bind fun pe =>
    some (addVec te pe)) 0 ts

/-- `BigramLanguageModel.forward` on one batch row, up to the logits
(the `targets` branch is `forward` below): embeddings, blocks, final
LayerNorm, `lm_head`. -/
def forwardSeq (ν : Ops) (cfg : Config) (m : BigramLanguageModel) (ts : List ℕ) : Option Mat :=
  (embed m ts).bind fun x =>
  (runBlocks ν cfg.block_size m.blocks x).bind fun x2 =>
  (LayerNorm.forward ν m.ln_f x2).bind fun x3 =>
  mapOpt (linAff m.lm_headW m.lm_headB) x3

/-- The batched forward pass producing the `(B, T, vocab_size)` logits. -/
def forwardB (ν : Ops) (cfg : Config) (m : BigramLanguageModel)
    (tss : List (List ℕ)) : Option (List Mat) :=
  mapOpt (forwardSeq ν cfg m) tss

/-- `F.cross_entropy` on one flattened row with its target class:
`log(Σ exp(logits)) - logits[target]`. -/
def ceRow (ν : Ops) (row : Vec) (t : ℕ) : ℚ :=
  ν.log ((row.map ν.exp).sum) - row.getD t 0

/-- `F.cross_entropy(logits, targets)` with the default mean reduction,
on flattened `(B*T, C)` logits and `(B*T,)` targets.  torch raises when
the row counts disagree or a target is not a valid class index. -/
def crossEntropy (ν : Ops) (lg : Mat) (tg : List ℕ) : Option ℚ :=
  if tg.length == lg.length && (lg.zip tg).all (fun p => decide (p.2 < p.1.length)) then
    some ((((lg.zip tg).map (fun p => ceRow ν p.1 p.2)).sum) / (lg.length : ℚ))
  else none

/-- The logits value returned by `forward`: the three-dimensional
`(B, T, vocab_size)` tensor when no targets were supplied, or the
two-dimensional `(B*T, vocab_size)` tensor after the in-place
`logits.view(B*T, C)` rebinding when targets were supplied. -/
inductive LogitsOut where
  | unflat (l : List Mat)
  | flat (l : Mat)
deriving DecidableEq

/-- `BigramLanguageModel.forward(idx, targets)`: compute the logits; if
`targets is None`, return them unflattened with `loss = None`; otherwise
flatten logits and targets across batch×time, compute the cross-entropy
loss, and return the (flattened) logits with the loss. -/
def forward (ν : Ops) (cfg : Config) (m : BigramLanguageModel)
    (tss : List (List ℕ)) (targets : Option (List (List ℕ))) :
    Option (LogitsOut × Option ℚ) :=
  (forwardB ν cfg m tss).bind fun ls =>
  match targets with
  | none => some (LogitsOut.unflat ls, none)
  | some tgs =>
      (crossEntropy ν ls.flatten tgs.flatten).bind fun loss =>
      some (LogitsOut.flat ls.flatten, some loss)

/-- `idx[:, -block_size:]` on one batch row.  Python slicing: for
`block_size = 0` the slice `[-0:] = [0:]` is the whole sequence;
otherwise it is the last `block_size` elements (all of them when the
sequence is shorter). -/
def crop (block_size : ℕ) (l : List ℕ) : List ℕ :=
  if block_size = 0 then l else l.drop (l.length - block_size)

/-- One generation step on one batch row: crop the context to the last
`block_size` tokens, run the forward pass without targets, keep only the
logits of the final position (`logits[:, -1, :]`, which raises on an
empty time axis), and softmax them into the next-token distribution. -/
def genStep (ν : Ops) (cfg : Config) (m : BigramLanguageModel)
    (idx : List ℕ) : Option (List ℚ) :=
  (forwardSeq ν cfg m (crop cfg.block_size idx)).bind fun lg =>
  (lg.getLast?).bind fun last =>
  maskedSoftmaxRow ν.exp (fun _ => true) last

/-- `BigramLanguageModel.generate` on one batch row, with the
`torch.multinomial` draw abstracted into an injectable `sample`
function from a distribution to a class index: loop exactly
`max_new_tokens` times, each iteration appending the one sampled token
(no early termination). -/
def generate1 (ν : Ops) (cfg : Config) (m : BigramLanguageModel)
    (sample : List ℚ → ℕ) : List ℕ → ℕ → Option (List ℕ)
  | idx, 0 => some idx
  | idx, Nat.succ k =>
      (genStep ν cfg m idx).bind fun probs =>
      generate1 ν cfg m sample (idx ++ [sample probs]) k

/-- Batched `generate`. -/
def generate (ν : Ops) (cfg : Config) (m : BigramLanguageModel)
    (sample : List ℚ → ℕ) (tss : List (List ℕ)) (k : ℕ) : Option (List (List ℕ)) :=
  mapOpt (fun ts => generate1 ν cfg m sample ts k) tss

/-! ## Construction

`BigramLanguageModel.__init__` builds the parameter tensors with shapes
read off the configuration.  Initialization randomness is abstracted
into a generator `g` indexed by a per-tensor counter and the entry
position.  The only failing statement on the construction path is
`head_size = n_embd // n_head` in `Block.__init__`, which raises
`ZeroDivisionError` when `n_head = 0`; it runs once per constructed
block, so construction fails exactly when a block is built
(`n_layer ≥ 1`) with `n_head = 0`. -/

def mkMatN (g : ℕ → ℕ → ℕ → ℚ) (t r c : ℕ) : Mat :=
  (List.range r).map (fun i => (List.range c).map (g t i))

def mkVecN (g : ℕ → ℕ → ℕ → ℚ) (t n : ℕ) : Vec :=
  (List.range n).map (g t 0)

/-- `Head.__init__`: three bias-free linear layers of shape
`(head_size, n_embd)`. -/
def constructHead (g : ℕ → ℕ → ℕ → ℚ) (cfg : Config) (t : ℕ) : Head :=
  { key := mkMatN g t (headSize cfg) cfg.n_embd
    query := mkMatN g (t+1) (headSize cfg) cfg.n_embd
    value := mkMatN g (t+2) (headSize cfg) cfg.n_embd }

/-- Number of parameter tensors per block (for the tensor counter). -/
def blockSpan (cfg : Config) : ℕ := 3 * cfg.n_head + 10

/-- `Block.__init__(config, n_embd, n_head)`: computes
`head_size = n_embd // n_head` (ZeroDivisionError when `n_head = 0`),
then builds the attention heads, projection, feed-forward and the two
independent LayerNorms. -/
def constructBlock (g : ℕ → ℕ → ℕ → ℚ) (cfg : Config) (t : ℕ) : Option Block :=
  if cfg.n_head = 0 then none
  else
    some
      { sa :=
          { heads := (List.range cfg.n_head).map (fun hh => constructHead g cfg (t + 3*hh))
            projW := mkMatN g (t + 3*cfg.n_head) cfg.n_embd cfg.n_embd
            projB := mkVecN g (t + 3*cfg.n_head + 1) cfg.n_embd }
        ffwd :=
          { w1 := mkMatN g (t + 3*cfg.n_head + 2) (4*cfg.n_embd) cfg.n_embd
            b1 := mkVecN g (t + 3*cfg.n_head + 3) (4*cfg.n_embd)
            w2 := mkMatN g (t + 3*cfg.n_head + 4) cfg.n_embd (4*cfg.n_embd)
            b2 := mkVecN g (t + 3*cfg.n_head + 5) cfg.n_embd }
        ln1 := { weight := mkVecN g (t + 3*cfg.n_head + 6) cfg.n_embd
                 bias := mkVecN g (t + 3*cfg.n_head + 7) cfg.n_embd }
        ln2 := { weight := mkVecN g (t + 3*cfg.n_head + 8) cfg.n_embd
                 bias := mkVecN g (t + 3*cfg.n_head + 9) cfg.n_embd } }

/-- `BigramLanguageModel.__init__`: the embedding tables, `n_layer`
blocks, the final LayerNorm, and `lm_head = nn.Linear(n_embd, vocab_size)`. -/
def construct (g : ℕ → ℕ → ℕ → ℚ) (cfg : Config) : Option BigramLanguageModel :=
  (mapOpt (fun l => constructBlock g cfg (2 + l * blockSpan cfg)) (List.range cfg.n_layer)).bind
  fun bls =>
  some
    { token_embedding_table := mkMatN g 0 cfg.vocab_size cfg.n_embd
      position_embedding_table := mkMatN g 1 cfg.block_size cfg.n_embd
      blocks := bls
      ln_f := { weight := mkVecN g (2 + cfg.n_layer * blockSpan cfg) cfg.n_embd
                bias := mkVecN g (3 + cfg.n_layer * blockSpan cfg) cfg.n_embd }
      lm_headW := mkMatN g (4 + cfg.n_layer * blockSpan cfg) cfg.vocab_size cfg.n_embd
      lm_headB := mkVecN g (5 + cfg.n_layer * blockSpan cfg) cfg.vocab_size }

/-! ## Shape well-formedness

The shapes that `__init__` gives every parameter tensor, as a predicate
on an arbitrary parameter assignment. -/

/-- A matrix with `r` rows of width `c`. -/
@[reducible] def MatShape (r c : ℕ) (m : Mat) : Prop := m.length = r ∧ ∀ row ∈ m, row.length = c

/-- Rows of a sequence representation all have width `w`. -/
@[reducible] def WF (w : ℕ) (x : Mat) : Prop := ∀ r ∈ x, r.length = w

@[reducible] def Head.wf (cfg : Config) (h : Head) : Prop :=
  MatShape (headSize cfg) cfg.n_embd h.key ∧
  MatShape (headSize cfg) cfg.n_embd h.query ∧
  MatShape (headSize cfg) cfg.n_embd h.value

@[reducible] def MultiHeadAttention.wf (cfg : Config) (mw : MultiHeadAttention) : Prop :=
  mw.heads.length = cfg.n_head ∧ (∀ h ∈ mw.heads, Head.wf cfg h) ∧
  MatShape cfg.n_embd cfg.n_embd mw.projW ∧ mw.projB.length = cfg.n_embd

@[reducible] def FeedForward.wf (cfg : Config) (f : FeedForward) : Prop :=
  MatShape (4 * cfg.n_embd) cfg.n_embd f.w1 ∧ f.b1.length = 4 * cfg.n_embd ∧
  MatShape cfg.n_embd (4 * cfg.n_embd) f.w2 ∧ f.b2.length = cfg.n_embd

@[reducible] def LayerNorm.wf (cfg : Config) (p : LayerNorm) : Prop :=
  p.weight.length = cfg.n_embd ∧ p.bias.length = cfg.n_embd

@[reducible] def Block.wf (cfg : Config) (b : Block) : Prop :=
  MultiHeadAttention.wf cfg b.sa ∧ FeedForward.wf cfg b.ffwd ∧
  LayerNorm.wf cfg b.ln1 ∧ LayerNorm.wf cfg b.ln2

@[reducible] def BigramLanguageModel.wf (cfg : Config) (m : BigramLanguageModel) : Prop :=
  MatShape cfg.vocab_size cfg.n_embd m.token_embedding_table ∧
  MatShape cfg.block_size cfg.n_embd m.position_embedding_table ∧
  m.blocks.length = cfg.n_layer ∧ (∀ b ∈ m.blocks, Block.wf cfg b) ∧
  LayerNorm.wf cfg m.ln_f ∧
  MatShape cfg.vocab_size cfg.n_embd m.lm_headW ∧ m.lm_headB.length = cfg.vocab_size

/-! ## Combinator lemmas -/

theorem mapOpt_length {f : α → Option β} {l : List α} {r : List β}
    (h : mapOpt f l = some r) : r.length = l.length := by
  induction l generalizing r with
  | nil => simp only [mapOpt, Option.some.injEq] at h; subst h; rfl
  | cons a as ih =>
      simp only [mapOpt, Option.bind_eq_some, Option.some.injEq] at h
      obtain ⟨b, _, bs, hbs, heq⟩ := h
      subst heq
      simp [ih hbs]

theorem mapOpt_getElem? {f : α → Option β} {l : List α} {r : List β}
    (h : mapOpt f l = some r) (n : ℕ) : r[n]? = l[n]?.bind f := by
  induction l generalizing r n with
  | nil => simp only [mapOpt, Option.some.injEq] at h; subst h; simp
  | cons a as ih =>
      simp only [mapOpt, Option.bind_eq_some, Option.some.injEq] at h
      obtain ⟨b, hfa, bs, hbs, heq⟩ := h
      subst heq
      cases n with
      | zero => simpa using hfa.symm
      | succ n => simpa using ih hbs n

theorem mapOpt_some_of {f : α → Option β} {l : List α} {P : β → Prop}
    (h : ∀ a ∈ l, ∃ b, f a = some b ∧ P b) :
    ∃ r, mapOpt f l = some r ∧ r.length = l.length ∧ ∀ b ∈ r, P b := by
  induction l with
  | nil => exact ⟨[], rfl, rfl, by simp⟩
  | cons a as ih =>
      obtain ⟨b, hb, hPb⟩ := h a (by simp)
      obtain ⟨r, hr, hlen, hP⟩ := ih (fun x hx => h x (by simp [hx]))
      refine ⟨b :: r, ?_, by simp [hlen], ?_⟩
      · simp [mapOpt, hb, hr]
      · intro c hc
        rcases List.mem_cons.1 hc with h1 | h2
        · exact h1 ▸ hPb
        · exact hP c h2

theorem mapIdxO_length {f : ℕ → α → Option β} :
    ∀ (s : ℕ) (l : List α) (r : List β), mapIdxO f s l = some r → r.length = l.length
  | _, [], r, h => by
      simp only [mapIdxO, Option.some.injEq] at h; subst h; rfl
  | s, a :: as, r, h => by
      simp only [mapIdxO, Option.bind_eq_some, Option.some.injEq] at h
      obtain ⟨b, _, bs, hbs, heq⟩ := h
      subst heq
      simp [mapIdxO_length (s + 1) as bs hbs]

theorem mapIdxO_getElem? {f : ℕ → α → Option β} :
    ∀ (s : ℕ) (l : List α) (r : List β), mapIdxO f s l = some r →
      ∀ n : ℕ, r[n]? = l[n]?.bind (f (s + n))
  | _, [], r, h, n => by
      simp only [mapIdxO, Option.some.injEq] at h; subst h; simp
  | s, a :: as, r, h, n => by
      simp only [mapIdxO, Option.bind_eq_some, Option.some.injEq] at h
      obtain ⟨b, hfa, bs, hbs, heq⟩ := h
      subst heq
      cases n with
      | zero => simpa using hfa.symm
      | succ n =>
          have harg : s + 1 + n = s + (n + 1) := by omega
          have := mapIdxO_getElem? (s + 1) as bs hbs n
          rw [harg] at this
          simpa using this

theorem mapIdxO_some_of {f : ℕ → α → Option β} {P : β → Prop} :
    ∀ (s : ℕ) (l : List α),
      (∀ n a, l[n]? = some a → ∃ b, f (s + n) a = some b ∧ P b) →
      ∃ r, mapIdxO f s l = some r ∧ r.length = l.length ∧ ∀ b ∈ r, P b
  | _, [], _ => ⟨[], rfl, rfl, by simp⟩
  | s, a :: as, h => by
      obtain ⟨b, hb, hPb⟩ := h 0 a (by simp)
      obtain ⟨r, hr, hlen, hP⟩ := mapIdxO_some_of (s + 1) as (fun n x hx => by
        obtain ⟨c, hc, hPc⟩ := h (n + 1) x (by simpa using hx)
        have harg : s + (n + 1) = s + 1 + n := by omega
        rw [harg] at hc
        exact ⟨c, hc, hPc⟩)
      refine ⟨b :: r, ?_, by simp [hlen], ?_⟩
      · simp only [mapIdxO]
        simp only [Nat.add_zero] at hb
        simp [hb, hr]
      · intro c hc
        rcases List.mem_cons.1 hc with h1 | h2
        · exact h1 ▸ hPb
        · exact hP c h2

theorem mapIdx_length {f : ℕ → α → β} : ∀ (s : ℕ) (l : List α), (mapIdx f s l).length = l.length
  | _, [] => rfl
  | s, a :: as => by simp [mapIdx, mapIdx_length (s + 1) as]

theorem mapIdx_getElem? {f : ℕ → α → β} :
    ∀ (s : ℕ) (l : List α) (n : ℕ), (mapIdx f s l)[n]? = l[n]?.map (f (s + n))
  | _, [], n => by simp [mapIdx]
  | s, a :: as, 0 => by simp [mapIdx]
  | s, a :: as, n + 1 => by
      have harg : s + 1 + n = s + (n + 1) := by omega
      have := @mapIdx_getElem? _ _ f (s + 1) as n
      rw [harg] at this
      simpa [mapIdx] using this

theorem zipWith_getElem? {f : α → β → γ} {a : List α} {b : List β} {n : ℕ} {x : α} {y : β}
    (ha : a[n]? = some x) (hb : b[n]? = some y) :
    (List.zipWith f a b)[n]? = some (f x y) := by
  induction a generalizing b n with
  | nil => simp at ha
  | cons p ps ih =>
      cases b with
      | nil => simp at hb
      | cons q qs =>
          cases n with
          | zero =>
              simp only [List.getElem?_cons_zero, Option.some.injEq] at ha hb
              simp [ha, hb]
          | succ n =>
              simp only [List.getElem?_cons_succ] at ha hb
              simpa using ih ha hb

theorem sum_pos_mem {l : List ℚ} (h0 : ∀ x ∈ l, 0 ≤ x) {a : ℚ} (ha : a ∈ l) (hp : 0 < a) :
    0 < l.sum := by
  induction l with
  | nil => simp at ha
  | cons b bs ih =>
      rcases List.mem_cons.1 ha with h1 | h2
      · subst h1
        have : 0 ≤ bs.sum := List.sum_nonneg (fun x hx => h0 x (by simp [hx]))
        simp only [List.sum_cons]
        linarith
      · have hb : 0 ≤ b := h0 b (by simp)
        have : 0 < bs.sum := ih (fun x hx => h0 x (by simp [hx])) h2
        simp only [List.sum_cons]
        linarith

theorem sum_map_const {l : List α} {f : α → ℕ} {c : ℕ} (h : ∀ x ∈ l, f x = c) :
    (l.map f).sum = l.length * c := by
  induction l with
  | nil => simp
  | cons a as ih =>
      simp only [List.map_cons, List.sum_cons, List.length_cons, h a (by simp)]
      rw [ih (fun x hx => h x (by simp [hx]))]
      ring

/-! ## Success and shape lemmas for the individual layers -/

theorem linApp_some {W : Mat} {v : Vec} (h : ∀ r ∈ W, r.length = v.length) :
    linApp W v = some (W.map (fun r => dot r v)) := by
  have hc : W.all (fun r => r.length == v.length) = true :=
    List.all_eq_true.2 (fun r hr => beq_iff_eq.2 (h r hr))
  simp [linApp, hc]

theorem linAff_some {W : Mat} {b v : Vec} (h : ∀ r ∈ W, r.length = v.length) :
    linAff W b v =
      some (List.zipWith (fun x y => x + y) (W.map (fun r => dot r v)) b) := by
  have hc : W.all (fun r => r.length == v.length) = true :=
    List.all_eq_true.2 (fun r hr => beq_iff_eq.2 (h r hr))
  simp [linAff, hc]

theorem linAff_none {W : Mat} {b v : Vec} {r : Vec} (hr : r ∈ W)
    (h : r.length ≠ v.length) : linAff W b v = none := by
  have hc : W.all (fun r => r.length == v.length) = false :=
    List.all_eq_false.2 ⟨r, hr, by simpa using h⟩
  simp [linAff, hc]

theorem zipWith_getElem?_rev {f : α → β → γ} {a : List α} {b : List β} {n : ℕ} {z : γ}
    (h : (List.zipWith f a b)[n]? = some z) :
    ∃ x y, a[n]? = some x ∧ b[n]? = some y ∧ z = f x y := by
  induction a generalizing b n with
  | nil => simp at h
  | cons p ps ih =>
      cases b with
      | nil => simp at h
      | cons q qs =>
          cases n with
          | zero =>
              simp only [List.zipWith_cons_cons, List.getElem?_cons_zero,
                Option.some.injEq] at h
              exact ⟨p, q, by simp, by simp, h.symm⟩
          | succ n =>
              simp only [List.zipWith_cons_cons, List.getElem?_cons_succ] at h ⊢
              exact ih h

theorem addMat_length {x y : Mat} : (addMat x y).length = min x.length y.length := by
  simp [addMat, List.length_zipWith]

theorem addVec_length {a b : Vec} : (addVec a b).length = min a.length b.length := by
  simp [addVec, List.length_zipWith]

theorem addMat_WF {w : ℕ} {x y : Mat} (hx : WF w x) (hy : WF w y) : WF w (addMat x y) := by
  intro r hr
  obtain ⟨n, hn⟩ := List.mem_iff_getElem?.1 hr
  obtain ⟨u, v, hu, hv, heq⟩ := zipWith_getElem?_rev hn
  subst heq
  rw [addVec_length, hx u (List.getElem?_mem hu), hy v (List.getElem?_mem hv)]
  simp

theorem width_of_WF {w : ℕ} {x : Mat} (hx : WF w x) (hne : x ≠ []) : width x = w := by
  cases x with
  | nil => exact absurd rfl hne
  | cons r rest => exact hx r (by simp)

/-- Characterization of a successful masked softmax: the normalizer of
the kept exponentials is nonzero and each weight is its share of it. -/
theorem maskedSoftmaxRow_char {e : ℚ → ℚ} {keep : ℕ → Bool} {r w : Vec}
    (h : maskedSoftmaxRow e keep r = some w) :
    (mapIdx (fun j s => if keep j then e s else 0) 0 r).sum ≠ 0 ∧
      w = (mapIdx (fun j s => if keep j then e s else 0) 0 r).map
        (fun z => z / (mapIdx (fun j s => if keep j then e s else 0) 0 r).sum) := by
  by_cases hd : (mapIdx (fun j s => if keep j then e s else 0) 0 r).sum = 0
  · simp [maskedSoftmaxRow, hd] at h
  · simp only [maskedSoftmaxRow, if_neg hd, Option.some.injEq] at h
    exact ⟨hd, h.symm⟩

theorem maskedSoftmaxRow_some {e : ℚ → ℚ} {keep : ℕ → Bool} {r : Vec}
    (hpos : ∀ q, 0 < e q) {j : ℕ} (hj : j < r.length) (hkeep : keep j = true) :
    ∃ w, maskedSoftmaxRow e keep r = some w ∧ w.length = r.length := by
  have hlen : (mapIdx (fun j s => if keep j then e s else 0) 0 r).length = r.length :=
    mapIdx_length 0 r
  have hmem : ∀ z ∈ mapIdx (fun j s => if keep j then e s else 0) 0 r, 0 ≤ z := by
    intro z hz
    obtain ⟨n, hn⟩ := List.mem_iff_getElem?.1 hz
    rw [mapIdx_getElem? 0 r n] at hn
    simp only [Nat.zero_add] at hn
    cases hr : r[n]? with
    | none => simp [hr] at hn
    | some s =>
        rw [hr, Option.map_some'] at hn
        have hz' := Option.some.inj hn
        rw [← hz']
        by_cases hk : keep n
        · simp only [hk, if_true]
          exact le_of_lt (hpos s)
        · simp [hk]
  have hsj : r[j]? = some r[j] := List.getElem?_eq_getElem hj
  have hesj : (mapIdx (fun j s => if keep j then e s else 0) 0 r)[j]? = some (e r[j]) := by
    rw [mapIdx_getElem? 0 r j, hsj, Option.map_some']
    simp [hkeep]
  have hpmem : e r[j] ∈ mapIdx (fun j s => if keep j then e s else 0) 0 r :=
    List.getElem?_mem hesj
  have hdpos : 0 < (mapIdx (fun j s => if keep j then e s else 0) 0 r).sum :=
    sum_pos_mem hmem hpmem (hpos _)
  refine ⟨(mapIdx (fun j s => if keep j then e s else 0) 0 r).map
      (fun z => z / (mapIdx (fun j s => if keep j then e s else 0) 0 r).sum), ?_, ?_⟩
  · simp only [maskedSoftmaxRow, if_neg (ne_of_gt hdpos)]
  · simp [hlen]

/-- Weights at masked positions are exactly 0 (`exp(-inf) / d = 0`). -/
theorem maskedSoftmaxRow_zero {e : ℚ → ℚ} {keep : ℕ → Bool} {r w : Vec}
    (h : maskedSoftmaxRow e keep r = some w) {n : ℕ} (hk : keep n = false) {z : ℚ}
    (hz : w[n]? = some z) : z = 0 := by
  obtain ⟨_, hw⟩ := maskedSoftmaxRow_char h
  subst hw
  rw [List.getElem?_map, mapIdx_getElem? 0 r n] at hz
  cases hr : r[n]? with
  | none => simp [hr] at hz
  | some s =>
      rw [hr, Option.map_some', Option.map_some'] at hz
      have hz' := Option.some.inj hz
      rw [← hz']
      simp [hk]

theorem lnVec_some (ν : Ops) {p : LayerNorm} {v : Vec} (h : v.length = p.weight.length)
    (hb : p.bias.length = p.weight.length) :
    ∃ u, LayerNorm.forward1 ν p v = some u ∧ u.length = v.length := by
  unfold LayerNorm.forward1
  rw [if_pos (beq_iff_eq.2 h)]
  refine ⟨_, rfl, ?_⟩
  simp only [List.length_map, List.length_zip]
  omega

theorem layerNorm_forward_ok {ν : Ops} {cfg : Config} {p : LayerNorm} {x : Mat}
    (hw : LayerNorm.wf cfg p) (hx : WF cfg.n_embd x) :
    ∃ y, LayerNorm.forward ν p x = some y ∧ y.length = x.length ∧ WF cfg.n_embd y := by
  have hall : ∀ v ∈ x, ∃ u, LayerNorm.forward1 ν p v = some u ∧
      (fun u : Vec => u.length = cfg.n_embd) u := by
    intro v hv
    obtain ⟨u, hu, hul⟩ := lnVec_some ν (by rw [hx v hv, hw.1]) (by rw [hw.2, hw.1])
    exact ⟨u, hu, by simpa [hul] using hx v hv⟩
  obtain ⟨y, hy, hlen, hP⟩ := mapOpt_some_of hall
  exact ⟨y, hy, hlen, hP⟩

theorem head_forward_ok {ν : Ops} {cfg : Config} {h : Head} {x : Mat}
    (hw : Head.wf cfg h) (hx : WF cfg.n_embd x) (hT : x.length ≤ cfg.block_size)
    (hpos : ∀ z, 0 < ν.exp z) :
    ∃ o, Head.forward ν cfg.block_size h x = some o ∧ o.length = x.length ∧
      WF (headSize cfg) o := by
  have hk' : ∀ v ∈ x, ∃ b, linApp h.key v = some b ∧ b.length = headSize cfg := by
    intro v hv
    exact ⟨_, linApp_some (fun r hr => by rw [hw.1.2 r hr, hx v hv]),
      by simp [hw.1.1]⟩
  obtain ⟨k, hk, hklen, hkP⟩ := mapOpt_some_of hk'
  have hq' : ∀ v ∈ x, ∃ b, linApp h.query v = some b ∧ b.length = headSize cfg := by
    intro v hv
    exact ⟨_, linApp_some (fun r hr => by rw [hw.2.1.2 r hr, hx v hv]),
      by simp [hw.2.1.1]⟩
  obtain ⟨q, hq, hqlen, hqP⟩ := mapOpt_some_of hq'
  have hv' : ∀ v ∈ x, ∃ b, linApp h.value v = some b ∧ b.length = headSize cfg := by
    intro v hv
    exact ⟨_, linApp_some (fun r hr => by rw [hw.2.2.2 r hr, hx v hv]),
      by simp [hw.2.2.1]⟩
  obtain ⟨v, hv, hvlen, hvP⟩ := mapOpt_some_of hv'
  have hscl : (attnScores ν (width x) q k).length = x.length := by
    simp [attnScores, hqlen]
  have hwei' : ∀ n row, (attnScores ν (width x) q k)[n]? = some row →
      ∃ w, maskedSoftmaxRow ν.exp (fun j => decide (j ≤ 0 + n)) row = some w ∧
        w.length = row.length := by
    intro n row hrow
    have hn : n < (attnScores ν (width x) q k).length :=
      (List.getElem?_eq_some_iff.1 hrow).1
    rw [hscl] at hn
    have hrowlen : row.length = x.length := by
      simp only [attnScores, List.getElem?_map] at hrow
      cases hqn : q[n]? with
      | none => simp [hqn] at hrow
      | some qn =>
          rw [hqn, Option.map_some'] at hrow
          have := Option.some.inj hrow
          rw [← this]
          simp [hklen]
    have hjlt : n < row.length := by rw [hrowlen]; exact hn
    have hkeep : decide (n ≤ 0 + n) = true := by simp
    obtain ⟨w, hmsr, hwl⟩ := @maskedSoftmaxRow_some ν.exp
      (fun j => decide (j ≤ 0 + n)) row hpos n hjlt hkeep
    exact ⟨w, hmsr, hwl⟩
  obtain ⟨wei, hwei, hweilen, _⟩ :=
    @mapIdxO_some_of Vec Vec (fun i row => maskedSoftmaxRow ν.exp
      (fun j => decide (j ≤ i)) row) (fun w => ∃ rl, w.length = rl) 0
      (attnScores ν (width x) q k) (fun n row hrow => by
        obtain ⟨w, hmsr, hwl⟩ := hwei' n row hrow
        exact ⟨w, hmsr, row.length, hwl⟩)
  refine ⟨wei.map (fun w => weightedSum w v), ?_, ?_, ?_⟩
  · unfold Head.forward
    rw [hk, Option.some_bind, hq, Option.some_bind, if_pos hT, hwei,
      Option.some_bind, hv, Option.some_bind]
  · rw [List.length_map, hweilen, hscl]
  · intro r hr
    obtain ⟨w, hwmem, heq⟩ := List.mem_map.1 hr
    rw [← heq]
    have hxne : x ≠ [] := by
      intro hnil
      subst hnil
      rw [hscl, List.length_nil] at hweilen
      have : wei = [] := List.length_eq_zero.1 hweilen
      subst this
      simp at hwmem
    have hvne : v ≠ [] := by
      intro hnil
      subst hnil
      simp only [List.length_nil] at hvlen
      exact hxne (List.length_eq_zero.1 hvlen.symm)
    have hwv : width v = headSize cfg := width_of_WF hvP hvne
    simp only [weightedSum, List.length_map, List.length_range, hwv]

theorem catFeat_row_len {outs : List Mat} {T hs : ℕ}
    (ho : ∀ o ∈ outs, o.length = T ∧ WF hs o) :
    ∀ r ∈ catFeat outs T, r.length = outs.length * hs := by
  intro r hr
  obtain ⟨t, ht, heq⟩ := List.mem_map.1 hr
  rw [← heq, List.length_flatten, List.map_map]
  have ht' : t < T := List.mem_range.1 ht
  rw [sum_map_const]
  intro o hoo
  have hlt : t < o.length := by rw [(ho o hoo).1]; exact ht'
  simp only [Function.comp_apply]
  rw [List.getD_eq_getElem?_getD, List.getElem?_eq_getElem hlt]
  exact (ho o hoo).2 _ (List.getElem_mem hlt)

theorem catFeat_length {outs : List Mat} {T : ℕ} : (catFeat outs T).length = T := by
  simp [catFeat]

theorem mha_forward_ok {ν : Ops} {cfg : Config} {mw : MultiHeadAttention}
    {x : Mat} (hw : MultiHeadAttention.wf cfg mw) (hx : WF cfg.n_embd x)
    (hT : x.length ≤ cfg.block_size) (hpos : ∀ z, 0 < ν.exp z)
    (hnh : 1 ≤ cfg.n_head) (hdvd : cfg.n_head ∣ cfg.n_embd) :
    ∃ o, MultiHeadAttention.forward ν cfg.block_size mw x = some o ∧
      o.length = x.length ∧ WF cfg.n_embd o := by
  obtain ⟨hhl, hhw, hpw, hpb⟩ := hw
  have hne : mw.heads.isEmpty = false := by
    cases hh : mw.heads with
    | nil => rw [hh] at hhl; simp at hhl; omega
    | cons a b => simp [hh]
  have houts' : ∀ hd ∈ mw.heads, ∃ o, Head.forward ν cfg.block_size hd x = some o ∧
      (o.length = x.length ∧ WF (headSize cfg) o) := by
    intro hd hhd
    obtain ⟨o, ho, hol, how⟩ := head_forward_ok (hhw hd hhd) hx hT hpos
    exact ⟨o, ho, hol, how⟩
  obtain ⟨outs, houts, houtslen, houtsP⟩ := mapOpt_some_of houts'
  have hcat : ∀ r ∈ catFeat outs x.length, r.length = cfg.n_embd := by
    intro r hr
    have := catFeat_row_len houtsP r hr
    rw [this, houtslen, hhl]
    unfold headSize
    exact Nat.mul_div_cancel' hdvd
  have hproj : ∀ r ∈ catFeat outs x.length, ∃ u,
      linAff mw.projW mw.projB r = some u ∧ u.length = cfg.n_embd := by
    intro r hr
    refine ⟨_, linAff_some (fun rw hrw => by rw [hpw.2 rw hrw, hcat r hr]), ?_⟩
    rw [List.length_zipWith, List.length_map, hpw.1, hpb]
    simp
  obtain ⟨o, ho, holen, hoP⟩ := mapOpt_some_of hproj
  refine ⟨o, ?_, ?_, hoP⟩
  · unfold MultiHeadAttention.forward
    rw [hne]
    simp only [Bool.false_eq_true, if_false]
    rw [houts, Option.some_bind, ho]
  · rw [holen, catFeat_length]

theorem feedForward_forward_ok {ν : Ops} {cfg : Config} {f : FeedForward} {x : Mat}
    (hw : FeedForward.wf cfg f) (hx : WF cfg.n_embd x) :
    ∃ o, FeedForward.forward ν f x = some o ∧ o.length = x.length ∧ WF cfg.n_embd o := by
  obtain ⟨hw1, hb1, hw2, hb2⟩ := hw
  have hrows : ∀ v ∈ x, ∃ u,
      ((linAff f.w1 f.b1 v).bind fun h1 => linAff f.w2 f.b2 (h1.map ν.gelu)) = some u ∧
      u.length = cfg.n_embd := by
    intro v hv
    have e1 : linAff f.w1 f.b1 v =
        some (List.zipWith (fun a b => a + b) (f.w1.map (fun r => dot r v)) f.b1) :=
      linAff_some (fun r hr => by rw [hw1.2 r hr, hx v hv])
    have hlen1 :
        (List.zipWith (fun a b => a + b) (f.w1.map (fun r => dot r v)) f.b1).length =
          4 * cfg.n_embd := by
      rw [List.length_zipWith, List.length_map, hw1.1, hb1]
      simp
    have e2 : linAff f.w2 f.b2
        ((List.zipWith (fun a b => a + b) (f.w1.map (fun r => dot r v)) f.b1).map ν.gelu) =
        some (List.zipWith (fun a b => a + b)
          (f.w2.map (fun r => dot r
            ((List.zipWith (fun a b => a + b) (f.w1.map (fun r => dot r v)) f.b1).map
              ν.gelu)))
          f.b2) :=
      linAff_some (fun r hr => by rw [hw2.2 r hr, List.length_map, hlen1])
    refine ⟨List.zipWith (fun a b => a + b)
        (f.w2.map (fun r => dot r
          ((List.zipWith (fun a b => a + b) (f.w1.map (fun r => dot r v)) f.b1).map
            ν.gelu)))
        f.b2, ?_, ?_⟩
    · rw [e1, Option.some_bind]
      exact e2
    · rw [List.length_zipWith, List.length_map, hw2.1, hb2]
      simp
  obtain ⟨o, ho, holen, hoP⟩ := mapOpt_some_of hrows
  exact ⟨o, ho, holen, hoP⟩

theorem block_forward_ok {ν : Ops} {cfg : Config} {b : Block} {x : Mat}
    (hw : Block.wf cfg b) (hx : WF cfg.n_embd x) (hT : x.length ≤ cfg.block_size)
    (hpos : ∀ z, 0 < ν.exp z) (hnh : 1 ≤ cfg.n_head) (hdvd : cfg.n_head ∣ cfg.n_embd) :
    ∃ o, Block.forward ν cfg.block_size b x = some o ∧ o.length = x.length ∧
      WF cfg.n_embd o := by
  obtain ⟨hsa, hff, hl1, hl2⟩ := hw
  obtain ⟨nx, hnx, hnxlen, hnxw⟩ := layerNorm_forward_ok hl1 hx
  obtain ⟨a, ha, halen, haw⟩ :=
    mha_forward_ok hsa hnxw (by rw [hnxlen]; exact hT) hpos hnh hdvd
  have hx1len : (addMat x a).length = x.length := by
    rw [addMat_length, halen, hnxlen]
    simp
  have hx1w : WF cfg.n_embd (addMat x a) := addMat_WF hx haw
  obtain ⟨ny, hny, hnylen, hnyw⟩ := layerNorm_forward_ok hl2 hx1w
  obtain ⟨fo, hfo, hfolen, hfow⟩ := feedForward_forward_ok hff hnyw
  refine ⟨addMat (addMat x a) fo, ?_, ?_, addMat_WF hx1w hfow⟩
  · unfold Block.forward
    rw [hnx, Option.some_bind, ha, Option.some_bind, hny, Option.some_bind, hfo,
      Option.some_bind]
  · rw [addMat_length, hfolen, hnylen, hx1len]
    simp

theorem runBlocks_some {ν : Ops} {cfg : Config} (hpos : ∀ z, 0 < ν.exp z)
    (hnh : 1 ≤ cfg.n_head) (hdvd : cfg.n_head ∣ cfg.n_embd) :
    ∀ (bl : List Block) (x : Mat), (∀ b ∈ bl, Block.wf cfg b) → WF cfg.n_embd x →
      x.length ≤ cfg.block_size →
      ∃ o, runBlocks ν cfg.block_size bl x = some o ∧ o.length = x.length ∧
        WF cfg.n_embd o
  | [], x, _, hx, _ => ⟨x, rfl, rfl, hx⟩
  | b :: rest, x, hbl, hx, hT => by
      obtain ⟨o, ho, holen, how⟩ :=
        block_forward_ok (hbl b (by simp)) hx hT hpos hnh hdvd
      obtain ⟨o2, ho2, ho2len, ho2w⟩ :=
        runBlocks_some hpos hnh hdvd rest o (fun bb hbb => hbl bb (by simp [hbb])) how
          (by rw [holen]; exact hT)
      refine ⟨o2, ?_, by rw [ho2len, holen], ho2w⟩
      unfold runBlocks
      rw [ho, Option.some_bind, ho2]

theorem embed_some {cfg : Config} {m : BigramLanguageModel} {ts : List ℕ}
    (hw : BigramLanguageModel.wf cfg m) (hts : ∀ t ∈ ts, t < cfg.vocab_size)
    (hT : ts.length ≤ cfg.block_size) :
    ∃ x, embed m ts = some x ∧ x.length = ts.length ∧ WF cfg.n_embd x := by
  obtain ⟨htok, hposu, _, _, _, _, _⟩ := hw
  have hrows : ∀ n a, ts[n]? = some a →
      ∃ b, ((m.token_embedding_table[a]?).bind fun te =>
        (m.position_embedding_table[0 + n]?).bind fun pe =>
        some (addVec te pe)) = some b ∧ b.length = cfg.n_embd := by
    intro n a ha
    have hamem : a ∈ ts := List.getElem?_mem ha
    have haval : a < m.token_embedding_table.length := by
      rw [htok.1]; exact hts a hamem
    have hnlt : n < ts.length := (List.getElem?_eq_some_iff.1 ha).1
    have hposlt : 0 + n < m.position_embedding_table.length := by
      rw [hposu.1]; omega
    rw [List.getElem?_eq_getElem haval, Option.some_bind,
      List.getElem?_eq_getElem hposlt, Option.some_bind]
    refine ⟨_, rfl, ?_⟩
    rw [addVec_length, htok.2 _ (List.getElem_mem haval),
      hposu.2 _ (List.getElem_mem hposlt)]
    simp
  obtain ⟨x, hx, hxlen, hxw⟩ := @mapIdxO_some_of ℕ Vec
    (fun t tok => (m.token_embedding_table[tok]?).bind fun te =>
      (m.position_embedding_table[t]?).bind fun pe => some (addVec te pe))
    (fun b => b.length = cfg.n_embd) 0 ts hrows
  exact ⟨x, hx, hxlen, hxw⟩

/-- Master success lemma for the forward pass on one batch row: with a
well-formed model, a valid configuration, positive `exp`, in-vocabulary
tokens and `T ≤ block_size`, the forward pass succeeds (no NaN/Inf: in
particular every masked softmax row keeps its diagonal entry) and the
logits have `T` rows of width `vocab_size`. -/
theorem forwardSeq_ok {ν : Ops} {cfg : Config} {m : BigramLanguageModel} {ts : List ℕ}
    (hw : BigramLanguageModel.wf cfg m) (hpos : ∀ z, 0 < ν.exp z)
    (hnh : 1 ≤ cfg.n_head) (hdvd : cfg.n_head ∣ cfg.n_embd)
    (hts : ∀ t ∈ ts, t < cfg.vocab_size) (hT : ts.length ≤ cfg.block_size) :
    ∃ L, forwardSeq ν cfg m ts = some L ∧ L.length = ts.length ∧
      ∀ r ∈ L, r.length = cfg.vocab_size := by
  obtain ⟨x, hx, hxlen, hxw⟩ := embed_some hw hts hT
  obtain ⟨htok, hposu, hbll, hblw, hlnf, hlmw, hlmb⟩ := hw
  obtain ⟨x2, hx2, hx2len, hx2w⟩ :=
    runBlocks_some hpos hnh hdvd m.blocks x hblw hxw (by rw [hxlen]; exact hT)
  obtain ⟨x3, hx3, hx3len, hx3w⟩ := layerNorm_forward_ok hlnf hx2w
  have hhead : ∀ v ∈ x3, ∃ u, linAff m.lm_headW m.lm_headB v = some u ∧
      u.length = cfg.vocab_size := by
    intro v hv
    refine ⟨_, linAff_some (fun r hr => by rw [hlmw.2 r hr, hx3w v hv]), ?_⟩
    rw [List.length_zipWith, List.length_map, hlmw.1, hlmb]
    simp
  obtain ⟨L, hL, hLlen, hLw⟩ := mapOpt_some_of hhead
  refine ⟨L, ?_, by rw [hLlen, hx3len, hx2len, hxlen], hLw⟩
  unfold forwardSeq
  rw [hx, Option.some_bind, hx2, Option.some_bind, hx3, Option.some_bind, hL]

/-! ## Causality: agreement propagation through the layers

`agreeUpTo i x y` states that two per-position lists agree at every
position `t ≤ i`.  Each layer propagates it: position-wise layers
trivially, attention because the causal mask zeroes every weight at a
source position beyond the query position. -/

def agreeUpTo (i : ℕ) (x y : List α) : Prop := ∀ t, t ≤ i → x[t]? = y[t]?

theorem mapOpt_agree {f : α → Option β} {x y : List α} {ox oy : List β} {i : ℕ}
    (hx : mapOpt f x = some ox) (hy : mapOpt f y = some oy)
    (hag : agreeUpTo i x y) : agreeUpTo i ox oy := fun t ht => by
  rw [mapOpt_getElem? hx t, mapOpt_getElem? hy t, hag t ht]

theorem mapIdxO_agree {f : ℕ → α → Option β} {x y : List α} {ox oy : List β} {i : ℕ}
    (hx : mapIdxO f 0 x = some ox) (hy : mapIdxO f 0 y = some oy)
    (hag : agreeUpTo i x y) : agreeUpTo i ox oy := fun t ht => by
  rw [mapIdxO_getElem? 0 x ox hx t, mapIdxO_getElem? 0 y oy hy t, hag t ht]

theorem width_eq_of_agree {x y : Mat} (hlen : x.length = y.length)
    (h0 : x[0]? = y[0]?) : width x = width y := by
  cases x with
  | nil =>
      cases y with
      | nil => rfl
      | cons b bs => simp at hlen
  | cons a as =>
      cases y with
      | nil => simp at hlen
      | cons b bs =>
          simp only [List.getElem?_cons_zero, Option.some.injEq] at h0
          simp [width, h0]

theorem zipWith_getElem?_none_left {f : α → β → γ} {a : List α} {b : List β} {n : ℕ}
    (h : a[n]? = none) : (List.zipWith f a b)[n]? = none := by
  apply List.getElem?_eq_none
  rw [List.length_zipWith]
  have := List.getElem?_eq_none_iff.1 h
  omega

theorem zipWith_getElem?_none_right {f : α → β → γ} {a : List α} {b : List β} {n : ℕ}
    (h : b[n]? = none) : (List.zipWith f a b)[n]? = none := by
  apply List.getElem?_eq_none
  rw [List.length_zipWith]
  have := List.getElem?_eq_none_iff.1 h
  omega

theorem zipWith_agree {f : α → β → γ} {a1 a2 : List α} {b1 b2 : List β} {i : ℕ}
    (ha : agreeUpTo i a1 a2) (hb : agreeUpTo i b1 b2) :
    agreeUpTo i (List.zipWith f a1 b1) (List.zipWith f a2 b2) := by
  intro t ht
  cases h1 : a1[t]? with
  | none =>
      rw [zipWith_getElem?_none_left h1, zipWith_getElem?_none_left]
      rw [← ha t ht]
      exact h1
  | some u =>
      cases h2 : b1[t]? with
      | none =>
          rw [zipWith_getElem?_none_right h2, zipWith_getElem?_none_right]
          rw [← hb t ht]
          exact h2
      | some v =>
          rw [zipWith_getElem? h1 h2, zipWith_getElem?]
          · rw [← ha t ht]; exact h1
          · rw [← hb t ht]; exact h2

theorem addMat_agree {x1 x2 y1 y2 : Mat} {i : ℕ}
    (hx : agreeUpTo i x1 x2) (hy : agreeUpTo i y1 y2) :
    agreeUpTo i (addMat x1 y1) (addMat x2 y2) := zipWith_agree hx hy

/-- Two score rows that agree on the kept prefix produce the same masked
softmax (masked entries beyond the prefix contribute 0 either way). -/
theorem maskedSoftmaxRow_congr {e : ℚ → ℚ} {t : ℕ} {r1 r2 : Vec}
    (hlen : r1.length = r2.length)
    (hag : ∀ j, j ≤ t → r1[j]? = r2[j]?) :
    maskedSoftmaxRow e (fun j => decide (j ≤ t)) r1 =
      maskedSoftmaxRow e (fun j => decide (j ≤ t)) r2 := by
  have hes : mapIdx (fun j s => if decide (j ≤ t) then e s else 0) 0 r1 =
      mapIdx (fun j s => if decide (j ≤ t) then e s else 0) 0 r2 := by
    apply List.ext_getElem?
    intro n
    rw [mapIdx_getElem? 0 r1 n, mapIdx_getElem? 0 r2 n]
    by_cases hn : n ≤ t
    · rw [hag n hn]
    · cases h1 : r1[n]? with
      | none =>
          have h2 : r2[n]? = none := by
            apply List.getElem?_eq_none
            have := List.getElem?_eq_none_iff.1 h1
            omega
          rw [h2]
      | some s1 =>
          cases h2 : r2[n]? with
          | none =>
              exfalso
              have hlt := (List.getElem?_eq_some_iff.1 h1).1
              have := List.getElem?_eq_none_iff.1 h2
              omega
          | some s2 =>
              rw [Option.map_some', Option.map_some']
              simp [hn]
  simp only [maskedSoftmaxRow, hes]

theorem dotCol_congr : ∀ (w : Vec) (v1 v2 : Mat) (c : ℕ),
    v1.length = v2.length →
    (∀ (j : ℕ) (z : ℚ), w[j]? = some z → z ≠ 0 → v1[j]? = v2[j]?) →
    dotCol w v1 c = dotCol w v2 c
  | [], v1, v2, c, _, _ => by
      cases v1 <;> cases v2 <;> rfl
  | a :: w', [], v2, c, hlen, _ => by
      cases v2 with
      | nil => rfl
      | cons r2 vr2 => simp at hlen
  | a :: w', r1 :: vr1, v2, c, hlen, hj => by
      cases v2 with
      | nil => simp at hlen
      | cons r2 vr2 =>
          simp only [dotCol]
          have htail : dotCol w' vr1 c = dotCol w' vr2 c := by
            apply dotCol_congr w' vr1 vr2 c (by simpa using hlen)
            intro j z hjz hz
            have := hj (j + 1) z (by simpa using hjz) hz
            simpa using this
          by_cases ha : a = 0
          · rw [ha, htail]
            ring
          · have hr : r1 = r2 := by
              have := hj 0 a (by simp) ha
              simpa using this
            rw [hr, htail]

theorem weightedSum_congr {w : Vec} {v1 v2 : Mat}
    (hlen : v1.length = v2.length) (h0 : v1[0]? = v2[0]?)
    (hj : ∀ (j : ℕ) (z : ℚ), w[j]? = some z → z ≠ 0 → v1[j]? = v2[j]?) :
    weightedSum w v1 = weightedSum w v2 := by
  unfold weightedSum
  rw [width_eq_of_agree hlen h0]
  exact List.map_congr_left (fun c _ => dotCol_congr w v1 v2 c hlen hj)

/-- Causality at the head level: if two inputs of equal length agree at
all positions `t ≤ i`, the head outputs agree at all positions `t ≤ i`
(and have equal length).  The causal mask zeroes every attention weight
from a query position `t ≤ i` to any source position `j > t`, so later
positions cannot influence the result. -/
theorem head_forward_agree {ν : Ops} {bs : ℕ} {h : Head} {x y ox oy : Mat} {i : ℕ}
    (hx : Head.forward ν bs h x = some ox) (hy : Head.forward ν bs h y = some oy)
    (hlen : x.length = y.length) (hag : agreeUpTo i x y) :
    ox.length = oy.length ∧ agreeUpTo i ox oy := by
  unfold Head.forward at hx hy
  by_cases hbs : x.length ≤ bs
  · have hbsy : y.length ≤ bs := by rw [← hlen]; exact hbs
    simp only [hbs, if_true] at hx
    simp only [hbsy, if_true] at hy
    simp only [Option.bind_eq_some, Option.some.injEq] at hx hy
    obtain ⟨kx, hkx, qx, hqx, weix, hweix, vx, hvx, hox⟩ := hx
    obtain ⟨ky, hky, qy, hqy, weiy, hweiy, vy, hvy, hoy⟩ := hy
    have hkag : agreeUpTo i kx ky := mapOpt_agree hkx hky hag
    have hqag : agreeUpTo i qx qy := mapOpt_agree hqx hqy hag
    have hvag : agreeUpTo i vx vy := mapOpt_agree hvx hvy hag
    have hkxl := mapOpt_length hkx
    have hkyl := mapOpt_length hky
    have hqxl := mapOpt_length hqx
    have hqyl := mapOpt_length hqy
    have hvxl := mapOpt_length hvx
    have hvyl := mapOpt_length hvy
    have hweixl := mapIdxO_length 0 _ _ hweix
    have hweiyl := mapIdxO_length 0 _ _ hweiy
    have hw : width x = width y := width_eq_of_agree hlen (hag 0 (Nat.zero_le i))
    have hweiag : ∀ t, t ≤ i → weix[t]? = weiy[t]? := by
      intro t ht
      rw [mapIdxO_getElem? 0 _ _ hweix t, mapIdxO_getElem? 0 _ _ hweiy t]
      simp only [attnScores, List.getElem?_map, Nat.zero_add]
      rw [← hqag t ht]
      cases hq : qx[t]? with
      | none => simp
      | some qt =>
          simp only [Option.map_some', Option.some_bind]
          simp only [← hw]
          apply maskedSoftmaxRow_congr
          · simp only [List.length_map]
            rw [hkxl, hkyl, hlen]
          · intro j hj
            rw [List.getElem?_map, List.getElem?_map, hkag j (le_trans hj ht)]
    constructor
    · rw [← hox, ← hoy, List.length_map, List.length_map, hweixl, hweiyl]
      simp only [attnScores, List.length_map]
      rw [hqxl, hqyl, hlen]
    · intro t ht
      rw [← hox, ← hoy, List.getElem?_map, List.getElem?_map, ← hweiag t ht]
      cases hwt : weix[t]? with
      | none => simp
      | some w =>
          simp only [Option.map_some', Option.some.injEq]
          apply weightedSum_congr
          · rw [hvxl, hvyl, hlen]
          · exact hvag 0 (Nat.zero_le i)
          · intro j z hjz hz
            by_cases hj : j ≤ t
            · exact hvag j (le_trans hj ht)
            · exfalso
              rw [mapIdxO_getElem? 0 _ _ hweix t] at hwt
              obtain ⟨row, hrow, hmsr⟩ := Option.bind_eq_some.1 hwt
              have hkfalse : decide (j ≤ 0 + t) = false := by
                simp only [Nat.zero_add]
                simpa using hj
              exact hz (maskedSoftmaxRow_zero hmsr hkfalse hjz)
  · simp only [hbs, if_false] at hx
    simp [Option.bind_eq_some] at hx

theorem mha_forward_agree {ν : Ops} {bs : ℕ} {mw : MultiHeadAttention}
    {x y ox oy : Mat} {i : ℕ}
    (hx : MultiHeadAttention.forward ν bs mw x = some ox)
    (hy : MultiHeadAttention.forward ν bs mw y = some oy)
    (hlen : x.length = y.length) (hag : agreeUpTo i x y) :
    ox.length = oy.length ∧ agreeUpTo i ox oy := by
  unfold MultiHeadAttention.forward at hx hy
  by_cases hne : mw.heads.isEmpty
  · rw [if_pos hne] at hx
    cases hx
  · rw [if_neg hne] at hx hy
    simp only [Option.bind_eq_some] at hx hy
    obtain ⟨outsx, houtsx, hprojx⟩ := hx
    obtain ⟨outsy, houtsy, hprojy⟩ := hy
    have houtsxl := mapOpt_length houtsx
    have houtsyl := mapOpt_length houtsy
    have hcatag : agreeUpTo i (catFeat outsx x.length) (catFeat outsy y.length) := by
      intro t ht
      simp only [catFeat, List.getElem?_map]
      rw [← hlen]
      cases hrt : (List.range x.length)[t]? with
      | none => simp
      | some t' =>
          have htlt : t' = t ∧ t < x.length := by
            have h1 := (List.getElem?_eq_some_iff.1 hrt).1
            have h2 := (List.getElem?_eq_some_iff.1 hrt).2
            rw [List.length_range] at h1
            rw [List.getElem_range] at h2
            exact ⟨h2.symm, h1⟩
          obtain ⟨ht', htx⟩ := htlt
          simp only [Option.map_some', Option.some.injEq, ht']
          have hmaps : outsx.map (fun o => o.getD t []) = outsy.map (fun o => o.getD t []) := by
            apply List.ext_getElem?
            intro n
            rw [List.getElem?_map, List.getElem?_map, mapOpt_getElem? houtsx n,
              mapOpt_getElem? houtsy n]
            cases hhd : mw.heads[n]? with
            | none => simp
            | some hd =>
                simp only [Option.some_bind]
                have hnlt : n < mw.heads.length := (List.getElem?_eq_some_iff.1 hhd).1
                cases hfx : Head.forward ν bs hd x with
                | none =>
                    exfalso
                    have : outsx[n]? = none := by
                      rw [mapOpt_getElem? houtsx n, hhd, Option.some_bind, hfx]
                    rw [List.getElem?_eq_none_iff, houtsxl] at this
                    omega
                | some oxh =>
                    cases hfy : Head.forward ν bs hd y with
                    | none =>
                        exfalso
                        have : outsy[n]? = none := by
                          rw [mapOpt_getElem? houtsy n, hhd, Option.some_bind, hfy]
                        rw [List.getElem?_eq_none_iff, houtsyl] at this
                        omega
                    | some oyh =>
                        obtain ⟨hohlen, hohag⟩ := head_forward_agree hfx hfy hlen hag
                        simp only [Option.map_some', Option.some.injEq]
                        rw [List.getD_eq_getElem?_getD, List.getD_eq_getElem?_getD,
                          hohag t ht]
          rw [hmaps]
    have hcatl : (catFeat outsx x.length).length = (catFeat outsy y.length).length := by
      rw [catFeat_length, catFeat_length, hlen]
    exact ⟨by rw [mapOpt_length hprojx, mapOpt_length hprojy, hcatl],
      mapOpt_agree hprojx hprojy hcatag⟩

theorem layerNorm_forward_agree {ν : Ops} {p : LayerNorm} {x y ox oy : Mat} {i : ℕ}
    (hx : LayerNorm.forward ν p x = some ox) (hy : LayerNorm.forward ν p y = some oy)
    (hlen : x.length = y.length) (hag : agreeUpTo i x y) :
    ox.length = oy.length ∧ agreeUpTo i ox oy :=
  ⟨by rw [mapOpt_length hx, mapOpt_length hy, hlen], mapOpt_agree hx hy hag⟩

theorem feedForward_forward_agree {ν : Ops} {f : FeedForward} {x y ox oy : Mat} {i : ℕ}
    (hx : FeedForward.forward ν f x = some ox) (hy : FeedForward.forward ν f y = some oy)
    (hlen : x.length = y.length) (hag : agreeUpTo i x y) :
    ox.length = oy.length ∧ agreeUpTo i ox oy :=
  ⟨by rw [mapOpt_length hx, mapOpt_length hy, hlen], mapOpt_agree hx hy hag⟩

theorem block_forward_agree {ν : Ops} {bs : ℕ} {b : Block} {x y ox oy : Mat} {i : ℕ}
    (hx : Block.forward ν bs b x = some ox) (hy : Block.forward ν bs b y = some oy)
    (hlen : x.length = y.length) (hag : agreeUpTo i x y) :
    ox.length = oy.length ∧ agreeUpTo i ox oy := by
  unfold Block.forward at hx hy
  simp only [Option.bind_eq_some, Option.some.injEq] at hx hy
  obtain ⟨nx, hnx, ax, hax, ny, hny, fx, hfx, hox⟩ := hx
  obtain ⟨my, hmy, ay, hay, ry, hry, fy, hfy, hoy⟩ := hy
  obtain ⟨hnlen, hnag⟩ := layerNorm_forward_agree hnx hmy hlen hag
  obtain ⟨halen, haag⟩ := mha_forward_agree hax hay hnlen hnag
  have hx1len : (addMat x ax).length = (addMat y ay).length := by
    rw [addMat_length, addMat_length, hlen, halen]
  have hx1ag : agreeUpTo i (addMat x ax) (addMat y ay) := addMat_agree hag haag
  obtain ⟨hrlen, hrag⟩ := layerNorm_forward_agree hny hry hx1len hx1ag
  obtain ⟨hflen, hfag⟩ := feedForward_forward_agree hfx hfy hrlen hrag
  constructor
  · rw [← hox, ← hoy]
    simp only [addMat_length]
    omega
  · rw [← hox, ← hoy]
    exact addMat_agree hx1ag hfag

theorem runBlocks_agree {ν : Ops} {bs : ℕ} :
    ∀ (bl : List Block) (x y ox oy : Mat) (i : ℕ),
      runBlocks ν bs bl x = some ox → runBlocks ν bs bl y = some oy →
      x.length = y.length → agreeUpTo i x y →
      ox.length = oy.length ∧ agreeUpTo i ox oy
  | [], x, y, ox, oy, i, hx, hy, hlen, hag => by
      unfold runBlocks at hx hy
      cases hx
      cases hy
      exact ⟨hlen, hag⟩
  | b :: rest, x, y, ox, oy, i, hx, hy, hlen, hag => by
      unfold runBlocks at hx hy
      obtain ⟨o1, ho1, hrest1⟩ := Option.bind_eq_some.1 hx
      obtain ⟨o2, ho2, hrest2⟩ := Option.bind_eq_some.1 hy
      obtain ⟨hlen1, hag1⟩ := block_forward_agree ho1 ho2 hlen hag
      exact runBlocks_agree rest o1 o2 ox oy i hrest1 hrest2 hlen1 hag1

theorem embed_agree {m : BigramLanguageModel} {ts1 ts2 : List ℕ} {x y : Mat} {i : ℕ}
    (hx : embed m ts1 = some x) (hy : embed m ts2 = some y)
    (hlen : ts1.length = ts2.length) (hag : agreeUpTo i ts1 ts2) :
    x.length = y.length ∧ agreeUpTo i x y :=
  ⟨by rw [mapIdxO_length 0 _ _ hx, mapIdxO_length 0 _ _ hy, hlen],
    mapIdxO_agree hx hy hag⟩

/-- Causality of the full forward pass on one batch row: token
sequences of equal length agreeing at all positions `t ≤ i` produce
logits agreeing at all positions `t ≤ i`. -/
theorem forwardSeq_agree {ν : Ops} {cfg : Config} {m : BigramLanguageModel}
    {ts1 ts2 : List ℕ} {L1 L2 : Mat} {i : ℕ}
    (hx : forwardSeq ν cfg m ts1 = some L1) (hy : forwardSeq ν cfg m ts2 = some L2)
    (hlen : ts1.length = ts2.length) (hag : agreeUpTo i ts1 ts2) :
    L1.length = L2.length ∧ agreeUpTo i L1 L2 := by
  unfold forwardSeq at hx hy
  simp only [Option.bind_eq_some] at hx hy
  obtain ⟨x1, hx1, x2, hx2, x3, hx3, hL1⟩ := hx
  obtain ⟨y1, hy1, y2, hy2, y3, hy3, hL2⟩ := hy
  obtain ⟨hel, heag⟩ := embed_agree hx1 hy1 hlen hag
  obtain ⟨hbl, hbag⟩ := runBlocks_agree m.blocks x1 y1 x2 y2 i hx2 hy2 hel heag
  obtain ⟨hll, hlag⟩ := layerNorm_forward_agree hx3 hy3 hbl hbag
  exact ⟨by rw [mapOpt_length hL1, mapOpt_length hL2, hll],
    mapOpt_agree hL1 hL2 hlag⟩

/-! ## Failure lemmas: context-length violation and the non-divisible
configuration -/

theorem bind_const_none {o : Option α} : (o.bind fun _ => (none : Option β)) = none := by
  cases o <;> rfl

theorem mapOpt_none_of_mem {f : α → Option β} :
    ∀ {l : List α} {a : α}, a ∈ l → f a = none → mapOpt f l = none := by
  intro l
  induction l with
  | nil => intro a ha; simp at ha
  | cons b bs ih =>
      intro a ha hfa
      rcases List.mem_cons.1 ha with h1 | h2
      · subst h1
        simp [mapOpt, hfa]
      · unfold mapOpt
        rw [ih h2 hfa]
        cases f b with
        | none => rfl
        | some v => rfl

/-- `T > block_size` makes the position-embedding lookup at index
`block_size` fail (the table has only `block_size` rows). -/
theorem embed_none_of_long {cfg : Config} {m : BigramLanguageModel} {ts : List ℕ}
    (hw : BigramLanguageModel.wf cfg m) (h : cfg.block_size < ts.length) :
    embed m ts = none := by
  cases hx : embed m ts with
  | none => rfl
  | some x =>
      exfalso
      have hxl := mapIdxO_length 0 _ _ hx
      have hbs := mapIdxO_getElem? 0 _ _ hx cfg.block_size
      rw [List.getElem?_eq_getElem h, Option.some_bind] at hbs
      have hpos0 : m.position_embedding_table[0 + cfg.block_size]? = none := by
        apply List.getElem?_eq_none
        rw [hw.2.1.1]
        omega
      simp only [hpos0, Option.none_bind] at hbs
      rw [bind_const_none] at hbs
      rw [List.getElem?_eq_none_iff] at hbs
      omega

theorem forwardSeq_none_of_long {ν : Ops} {cfg : Config} {m : BigramLanguageModel}
    {ts : List ℕ} (hw : BigramLanguageModel.wf cfg m) (h : cfg.block_size < ts.length) :
    forwardSeq ν cfg m ts = none := by
  unfold forwardSeq
  rw [embed_none_of_long hw h, Option.none_bind]

theorem crop_length {bs : ℕ} (hbs : 1 ≤ bs) (l : List ℕ) :
    (crop bs l).length = min bs l.length := by
  unfold crop
  rw [if_neg (by omega), List.length_drop]
  omega

theorem crop_sublist_mem {bs : ℕ} {l : List ℕ} {a : ℕ} (h : a ∈ crop bs l) : a ∈ l := by
  unfold crop at h
  by_cases h0 : bs = 0
  · rw [if_pos h0] at h; exact h
  · rw [if_neg h0] at h; exact List.mem_of_mem_drop h

/-- With the non-divisible configuration, the concatenated head outputs
have width `n_head * (n_embd / n_head) ≠ n_embd`, so the output
projection's shape check fails at the first forward call. -/
theorem mha_forward_none_of_nondvd {ν : Ops} {cfg : Config}
    {mw : MultiHeadAttention} {x : Mat} (hw : MultiHeadAttention.wf cfg mw)
    (hx : WF cfg.n_embd x) (hne : x ≠ []) (hT : x.length ≤ cfg.block_size)
    (hpos : ∀ z, 0 < ν.exp z) (hnh : cfg.n_head ≠ 0) (hdvd : ¬ cfg.n_head ∣ cfg.n_embd) :
    MultiHeadAttention.forward ν cfg.block_size mw x = none := by
  obtain ⟨hhl, hhw, hpw, hpb⟩ := hw
  have hnemb : cfg.n_embd ≠ 0 := by
    intro h0
    exact hdvd (h0 ▸ Dvd.intro 0 rfl)
  have hempty : mw.heads.isEmpty = false := by
    cases hh : mw.heads with
    | nil => rw [hh] at hhl; simp at hhl; omega
    | cons a b => simp [hh]
  unfold MultiHeadAttention.forward
  rw [hempty]
  simp only [Bool.false_eq_true, if_false]
  have houts' : ∀ hd ∈ mw.heads, ∃ o, Head.forward ν cfg.block_size hd x = some o ∧
      (o.length = x.length ∧ WF (headSize cfg) o) := by
    intro hd hhd
    obtain ⟨o, ho, hol, how⟩ := head_forward_ok (hhw hd hhd) hx hT hpos
    exact ⟨o, ho, hol, how⟩
  obtain ⟨outs, houts, houtslen, houtsP⟩ := mapOpt_some_of houts'
  rw [houts, Option.some_bind]
  have hxlen1 : 1 ≤ x.length := by
    cases x with
    | nil => exact absurd rfl hne
    | cons a b => simp
  have hcat0 : ∃ r, r ∈ catFeat outs x.length ∧ r.length = cfg.n_head * headSize cfg := by
    have hc : (catFeat outs x.length).length = x.length := catFeat_length
    have hcne : catFeat outs x.length ≠ [] := by
      intro hnil
      rw [hnil] at hc
      simp at hc
      omega
    cases hcc : catFeat outs x.length with
    | nil => exact absurd hcc hcne
    | cons r rest =>
        refine ⟨r, by simp [hcc], ?_⟩
        have := catFeat_row_len houtsP r (by rw [hcc]; simp)
        rw [this, houtslen, hhl]
  obtain ⟨r, hrmem, hrlen⟩ := hcat0
  have hwrong : r.length ≠ cfg.n_embd := by
    rw [hrlen]
    intro heq
    exact hdvd ⟨headSize cfg, heq.symm⟩
  have hprow : ∃ w, w ∈ mw.projW ∧ w.length = cfg.n_embd := by
    cases hpc : mw.projW with
    | nil =>
        exfalso
        rw [hpc] at hpw
        have := hpw.1
        simp at this
        omega
    | cons w rest => exact ⟨w, by simp [hpc], hpw.2 w (by rw [hpc]; simp)⟩
  obtain ⟨w, hwmem, hwlen⟩ := hprow
  apply mapOpt_none_of_mem hrmem
  apply linAff_none hwmem
  rw [hwlen]
  intro heq
  exact hwrong heq.symm

theorem block_forward_none_of_nondvd {ν : Ops} {cfg : Config} {b : Block} {x : Mat}
    (hw : Block.wf cfg b) (hx : WF cfg.n_embd x) (hne : x ≠ [])
    (hT : x.length ≤ cfg.block_size) (hpos : ∀ z, 0 < ν.exp z)
    (hnh : cfg.n_head ≠ 0) (hdvd : ¬ cfg.n_head ∣ cfg.n_embd) :
    Block.forward ν cfg.block_size b x = none := by
  obtain ⟨hsa, hff, hl1, hl2⟩ := hw
  obtain ⟨nx, hnx, hnxlen, hnxw⟩ := layerNorm_forward_ok hl1 hx
  have hnxne : nx ≠ [] := by
    intro hnil
    rw [hnil] at hnxlen
    cases x with
    | nil => exact hne rfl
    | cons a as => simp at hnxlen
  unfold Block.forward
  rw [hnx, Option.some_bind,
    mha_forward_none_of_nondvd hsa hnxw hnxne (by rw [hnxlen]; exact hT)
      hpos hnh hdvd,
    Option.none_bind]

theorem forwardSeq_none_of_nondvd {ν : Ops} {cfg : Config} {m : BigramLanguageModel}
    {ts : List ℕ} (hw : BigramLanguageModel.wf cfg m) (hpos : ∀ z, 0 < ν.exp z)
    (hnh : cfg.n_head ≠ 0) (hdvd : ¬ cfg.n_head ∣ cfg.n_embd) (hlayer : 1 ≤ cfg.n_layer)
    (hts : ∀ t ∈ ts, t < cfg.vocab_size) (hT1 : 1 ≤ ts.length)
    (hTb : ts.length ≤ cfg.block_size) : forwardSeq ν cfg m ts = none := by
  obtain ⟨x, hx, hxlen, hxw⟩ := embed_some hw hts hTb
  have hxne : x ≠ [] := by
    intro hnil
    rw [hnil] at hxlen
    simp at hxlen
    omega
  unfold forwardSeq
  rw [hx, Option.some_bind]
  cases hbl : m.blocks with
  | nil =>
      exfalso
      have := hw.2.2.1
      rw [hbl] at this
      simp at this
      omega
  | cons b rest =>
      have hbwf : Block.wf cfg b := hw.2.2.2.1 b (by rw [hbl]; simp)
      unfold runBlocks
      rw [block_forward_none_of_nondvd hbwf hxw hxne (by rw [hxlen]; exact hTb) hpos
        hnh hdvd, Option.none_bind, Option.none_bind]

/-! ## Construction lemmas -/

theorem mkMatN_shape {g : ℕ → ℕ → ℕ → ℚ} {t r c : ℕ} : MatShape r c (mkMatN g t r c) := by
  constructor
  · simp [mkMatN]
  · intro row hrow
    obtain ⟨ii, _, heq⟩ := List.mem_map.1 hrow
    rw [← heq]
    simp

theorem mkVecN_length {g : ℕ → ℕ → ℕ → ℚ} {t n : ℕ} : (mkVecN g t n).length = n := by
  simp [mkVecN]

theorem constructHead_wf {g : ℕ → ℕ → ℕ → ℚ} {cfg : Config} {t : ℕ} :
    Head.wf cfg (constructHead g cfg t) := ⟨mkMatN_shape, mkMatN_shape, mkMatN_shape⟩

theorem constructBlock_some {g : ℕ → ℕ → ℕ → ℚ} {cfg : Config} {t : ℕ}
    (h : cfg.n_head ≠ 0) :
    ∃ b, constructBlock g cfg t = some b ∧ Block.wf cfg b := by
  refine ⟨_, by unfold constructBlock; rw [if_neg h], ?_, ?_, ?_, ?_⟩
  · refine ⟨by simp, ?_, mkMatN_shape, mkVecN_length⟩
    intro hd hhd
    obtain ⟨hh, _, heq⟩ := List.mem_map.1 hhd
    rw [← heq]
    exact constructHead_wf
  · exact ⟨mkMatN_shape, mkVecN_length, mkMatN_shape, mkVecN_length⟩
  · exact ⟨mkVecN_length, mkVecN_length⟩
  · exact ⟨mkVecN_length, mkVecN_length⟩

/-- Construction succeeds whenever the per-block `ZeroDivisionError`
(`n_head = 0` with at least one block) is not hit, and the resulting
model has the well-formed shapes. -/
theorem construct_some {g : ℕ → ℕ → ℕ → ℚ} {cfg : Config}
    (h : cfg.n_head ≠ 0 ∨ cfg.n_layer = 0) :
    ∃ m, construct g cfg = some m ∧ BigramLanguageModel.wf cfg m := by
  have hbl : ∀ l ∈ List.range cfg.n_layer,
      ∃ b, constructBlock g cfg (2 + l * blockSpan cfg) = some b ∧ Block.wf cfg b := by
    intro l hl
    rcases h with h1 | h2
    · exact constructBlock_some h1
    · rw [h2] at hl
      simp at hl
  obtain ⟨bls, hbls, hblslen, hblsP⟩ := mapOpt_some_of hbl
  refine ⟨_, by unfold construct; rw [hbls, Option.some_bind], ?_⟩
  exact ⟨mkMatN_shape, mkMatN_shape, by rw [hblslen]; simp, hblsP,
    ⟨mkVecN_length, mkVecN_length⟩, mkMatN_shape, mkVecN_length⟩

/-! ## Relational map lemma and generation -/

theorem mapOpt_some_rel {f : α → Option β} {R : α → β → Prop} :
    ∀ (l : List α), (∀ a ∈ l, ∃ b, f a = some b ∧ R a b) →
      ∃ r, mapOpt f l = some r ∧ r.length = l.length ∧
        ∀ (n : ℕ) (a : α) (b : β), l[n]? = some a → r[n]? = some b → R a b
  | [], _ => ⟨[], rfl, rfl, by intro n a b ha; simp at ha⟩
  | a :: as, h => by
      obtain ⟨b, hb, hR⟩ := h a (by simp)
      obtain ⟨r, hr, hlen, hrel⟩ := mapOpt_some_rel as (fun x hx => h x (by simp [hx]))
      refine ⟨b :: r, by simp [mapOpt, hb, hr], by simp [hlen], ?_⟩
      intro n a' b' ha' hb'
      cases n with
      | zero =>
          simp only [List.getElem?_cons_zero, Option.some.injEq] at ha' hb'
          rw [← ha', ← hb']
          exact hR
      | succ n =>
          simp only [List.getElem?_cons_succ] at ha' hb'
          exact hrel n a' b' ha' hb'

theorem genStep_ok {ν : Ops} {cfg : Config} {m : BigramLanguageModel}
    (hw : BigramLanguageModel.wf cfg m) (hpos : ∀ z, 0 < ν.exp z)
    (hnh : 1 ≤ cfg.n_head) (hdvd : cfg.n_head ∣ cfg.n_embd) (hbs : 1 ≤ cfg.block_size)
    (hvoc : 1 ≤ cfg.vocab_size) {idx : List ℕ} (hval : ∀ t ∈ idx, t < cfg.vocab_size)
    (hlen : 1 ≤ idx.length) :
    ∃ probs, genStep ν cfg m idx = some probs ∧ probs.length = cfg.vocab_size := by
  have hcval : ∀ t ∈ crop cfg.block_size idx, t < cfg.vocab_size :=
    fun t ht => hval t (crop_sublist_mem ht)
  have hclen := crop_length hbs idx
  have hcle : (crop cfg.block_size idx).length ≤ cfg.block_size := by rw [hclen]; omega
  obtain ⟨L, hL, hLlen, hLw⟩ := forwardSeq_ok hw hpos hnh hdvd hcval hcle
  have hLne : L ≠ [] := by
    intro h0
    rw [h0] at hLlen
    simp only [List.length_nil] at hLlen
    rw [hclen] at hLlen
    omega
  obtain ⟨last, hlast⟩ := Option.isSome_iff_exists.1 (List.getLast?_isSome.2 hLne)
  have hlastmem : last ∈ L := by
    rw [List.getLast?_eq_getElem?] at hlast
    exact List.getElem?_mem hlast
  have hlastlen : last.length = cfg.vocab_size := hLw last hlastmem
  obtain ⟨probs, hsm, hsml⟩ := @maskedSoftmaxRow_some ν.exp (fun _ => true) last hpos 0
    (by rw [hlastlen]; omega) rfl
  refine ⟨probs, ?_, by rw [hsml, hlastlen]⟩
  unfold genStep
  rw [hL, Option.some_bind, hlast, Option.some_bind, hsm]

theorem generate1_ok {ν : Ops} {cfg : Config} {m : BigramLanguageModel}
    {sample : List ℚ → ℕ} (hw : BigramLanguageModel.wf cfg m)
    (hpos : ∀ z, 0 < ν.exp z) (hnh : 1 ≤ cfg.n_head) (hdvd : cfg.n_head ∣ cfg.n_embd)
    (hbs : 1 ≤ cfg.block_size) (hvoc : 1 ≤ cfg.vocab_size)
    (hsamp : ∀ ps : List ℚ, ps ≠ [] → sample ps < ps.length) :
    ∀ (k : ℕ) (ts : List ℕ), (∀ t ∈ ts, t < cfg.vocab_size) → 1 ≤ ts.length →
      ∃ out, generate1 ν cfg m sample ts k = some out ∧
        out.length = ts.length + k ∧ out.take ts.length = ts
  | 0, ts, _, _ => ⟨ts, rfl, by simp, by simp⟩
  | Nat.succ k, ts, hval, hlen => by
      obtain ⟨probs, hstep, hplen⟩ := genStep_ok hw hpos hnh hdvd hbs hvoc hval hlen
      have hpne : probs ≠ [] := by
        intro h0
        rw [h0] at hplen
        simp at hplen
        omega
      have hnext : sample probs < cfg.vocab_size := by
        rw [← hplen]
        exact hsamp probs hpne
      have hval' : ∀ t ∈ ts ++ [sample probs], t < cfg.vocab_size := by
        intro t ht
        rcases List.mem_append.1 ht with h1 | h2
        · exact hval t h1
        · simp only [List.mem_singleton] at h2
          rw [h2]
          exact hnext
      obtain ⟨out, hout, houtlen, houttake⟩ :=
        generate1_ok hw hpos hnh hdvd hbs hvoc hsamp k (ts ++ [sample probs]) hval'
          (by simp)
      refine ⟨out, ?_, ?_, ?_⟩
      · unfold generate1
        rw [hstep, Option.some_bind, hout]
      · rw [houtlen, List.length_append]
        simp only [List.length_singleton]
        omega
      · have h2 : (ts ++ [sample probs]).length = ts.length + 1 := by
          rw [List.length_append]
          simp
        have h1 : out.take (ts.length + 1) = ts ++ [sample probs] := by
          rw [← h2]
          exact houttake
        calc out.take ts.length
            = (out.take (ts.length + 1)).take ts.length := by
              rw [List.take_take, Nat.min_eq_left (by omega)]
          _ = (ts ++ [sample probs]).take ts.length := by rw [h1]
          _ = ts := List.take_left ..

theorem crossEntropy_some {ν : Ops} {lg : Mat} {tg : List ℕ}
    (hlen : tg.length = lg.length) (hval : ∀ p ∈ lg.zip tg, p.2 < p.1.length) :
    crossEntropy ν lg tg =
      some ((((lg.zip tg).map (fun p => ceRow ν p.1 p.2)).sum) / (lg.length : ℚ)) := by
  have hc : (tg.length == lg.length &&
      (lg.zip tg).all fun p => decide (p.2 < p.1.length)) = true := by
    rw [Bool.and_eq_true]
    exact ⟨beq_iff_eq.2 hlen, List.all_eq_true.2 (fun p hp => decide_eq_true (hval p hp))⟩
  unfold crossEntropy
  rw [if_pos hc]

/-! ## Forward with and without targets -/

theorem forward_cases_ok {ν : Ops} {cfg : Config} {m : BigramLanguageModel}
    {tss tgs : List (List ℕ)} (hw : BigramLanguageModel.wf cfg m)
    (hpos : ∀ z, 0 < ν.exp z) (hnh : 1 ≤ cfg.n_head) (hdvd : cfg.n_head ∣ cfg.n_embd)
    (hrows : ∀ ts ∈ tss, (∀ t ∈ ts, t < cfg.vocab_size) ∧ ts.length ≤ cfg.block_size)
    (htglen : tgs.flatten.length = tss.flatten.length)
    (htgval : ∀ t ∈ tgs.flatten, t < cfg.vocab_size) :
    ∃ Ls loss, forwardB ν cfg m tss = some Ls ∧ Ls.length = tss.length ∧
      (∀ (b : ℕ) (ts : List ℕ) (L : Mat), tss[b]? = some ts → Ls[b]? = some L →
        L.length = ts.length ∧ ∀ r ∈ L, r.length = cfg.vocab_size) ∧
      forward ν cfg m tss none = some (LogitsOut.unflat Ls, none) ∧
      crossEntropy ν Ls.flatten tgs.flatten = some loss ∧
      forward ν cfg m tss (some tgs) = some (LogitsOut.flat Ls.flatten, some loss) ∧
      Ls.flatten.length = tss.flatten.length ∧
      ∀ r ∈ Ls.flatten, r.length = cfg.vocab_size := by
  have hrel : ∀ ts ∈ tss, ∃ L, forwardSeq ν cfg m ts = some L ∧
      (L.length = ts.length ∧ ∀ r ∈ L, r.length = cfg.vocab_size) := by
    intro ts hts
    obtain ⟨hv, hb⟩ := hrows ts hts
    obtain ⟨L, hL, h1, h2⟩ := forwardSeq_ok hw hpos hnh hdvd hv hb
    exact ⟨L, hL, h1, h2⟩
  obtain ⟨Ls, hLs, hLslen, hLsrel⟩ := mapOpt_some_rel tss hrel
  have hmaps : Ls.map List.length = tss.map List.length := by
    apply List.ext_getElem?
    intro n
    rw [List.getElem?_map, List.getElem?_map]
    cases hts : tss[n]? with
    | none =>
        have hn : Ls[n]? = none := by
          rw [List.getElem?_eq_none_iff] at hts ⊢
          omega
        rw [hn]
        rfl
    | some ts =>
        have hlt : n < tss.length := (List.getElem?_eq_some_iff.1 hts).1
        have hLn' : ∃ L, Ls[n]? = some L := by
          cases hLn : Ls[n]? with
          | none =>
              exfalso
              rw [List.getElem?_eq_none_iff] at hLn
              omega
          | some L => exact ⟨L, rfl⟩
        obtain ⟨L, hLn⟩ := hLn'
        rw [hLn, Option.map_some', Option.map_some', (hLsrel n ts L hts hLn).1]
  have hflatlen : Ls.flatten.length = tss.flatten.length := by
    rw [List.length_flatten, List.length_flatten, hmaps]
  have hflatw : ∀ r ∈ Ls.flatten, r.length = cfg.vocab_size := by
    intro r hr
    obtain ⟨L, hLmem, hrL⟩ := List.mem_flatten.1 hr
    obtain ⟨n, hn⟩ := List.mem_iff_getElem?.1 hLmem
    have hts' : ∃ ts, tss[n]? = some ts := by
      cases h : tss[n]? with
      | none =>
          exfalso
          rw [List.getElem?_eq_none_iff] at h
          have := (List.getElem?_eq_some_iff.1 hn).1
          omega
      | some ts => exact ⟨ts, rfl⟩
    obtain ⟨ts, hts⟩ := hts'
    exact ((hLsrel n ts L hts hn).2) r hrL
  have hcelen : tgs.flatten.length = Ls.flatten.length := by rw [hflatlen, htglen]
  have hceval : ∀ p ∈ Ls.flatten.zip tgs.flatten, p.2 < p.1.length := by
    intro p hp
    rw [hflatw p.1 (List.of_mem_zip hp).1]
    exact htgval p.2 (List.of_mem_zip hp).2
  have hLs' : forwardB ν cfg m tss = some Ls := hLs
  refine ⟨Ls, _, hLs', hLslen, hLsrel, ?_, crossEntropy_some hcelen hceval, ?_,
    hflatlen, hflatw⟩
  · unfold forward
    rw [hLs', Option.some_bind]
  · unfold forward
    rw [hLs', Option.some_bind]
    simp only [crossEntropy_some hcelen hceval, Option.some_bind]

/-- C6: Block composition — for every input `x`, `Block.forward`
returns a value exactly when the pipeline `x' = x + sa(ln1 x)`,
`x'' = x' + ffwd(ln2 x')` does, and the returned value is `x''`; the
two normalizers are the distinct parameter records `b.ln1` and `b.ln2`
(the `Block` structure holds two independent LayerNorms). -/
theorem block_residual_composition (ν : Ops) (bs : ℕ) (b : Block) (x z : Mat) :
    Block.forward ν bs b x = some z ↔
      ∃ nx a ny fo, LayerNorm.forward ν b.ln1 x = some nx ∧
        MultiHeadAttention.forward ν bs b.sa nx = some a ∧
        LayerNorm.forward ν b.ln2 (addMat x a) = some ny ∧
        FeedForward.forward ν b.ffwd ny = some fo ∧
        z = addMat (addMat x a) fo := by
  constructor
  · intro h
    simp only [Block.forward, Option.bind_eq_some, Option.some.injEq] at h
    obtain ⟨nx, h1, a, h2, ny, h3, fo, h4, h5⟩ := h
    exact ⟨nx, a, ny, fo, h1, h2, h3, h4, h5.symm⟩
  · intro h
    obtain ⟨nx, a, ny, fo, h1, h2, h3, h4, h5⟩ := h
    unfold Block.forward
    rw [h1, Option.some_bind, h2, Option.some_bind, h3, Option.some_bind, h4,
      Option.some_bind, h5]

/-! ## Concrete fixtures used by the witnesses -/

/-- A tiny valid configuration: vocab 2, width 2, one head, one layer,
context 2, dropout 0. -/
def cfgW : Config := ⟨2, 2, 1, 1, 2, 0⟩

/-- Concrete instantiation of the abstract numeric primitives (their
analytic properties enter only through the theorems' hypotheses). -/
def opsW : Ops := ⟨fun _ => 1, fun _ => 1, fun _ => 1, fun _ => 1, fun _ => 1⟩

/-- A concrete initializer. -/
def genW : ℕ → ℕ → ℕ → ℚ := fun _ _ _ => 0

def emptyModel : BigramLanguageModel := ⟨[], [], [], ⟨[], []⟩, [], []⟩

/-- The model built by `construct` from `cfgW`. -/
def mW : BigramLanguageModel := (construct genW cfgW).getD emptyModel

/-- The non-divisible configuration of the C3 counterexample:
`n_embd = 5`, `n_head = 2`. -/
def cfgC3 : Config := ⟨5, 5, 2, 1, 3, 0⟩

/-- The model object that construction produces from `cfgC3`. -/
def mC3 : BigramLanguageModel := (construct genW cfgC3).getD emptyModel

theorem mW_wf : BigramLanguageModel.wf cfgW mW := by decide

theorem mC3_wf : BigramLanguageModel.wf cfgC3 mC3 := by decide

/-! ## Claim theorems -/

/-- C3 counterexample: with `n_embd = 5` not divisible by `n_head = 2`
(and `n_head ≠ 0`), construction does NOT fail — `head_size` is
computed by floor division without error and a model object is
produced — contradicting the claim that construction fails immediately
with no model object. -/
theorem construct_nondvd_counterexample :
    ¬ (cfgC3.n_head ∣ cfgC3.n_embd) ∧ cfgC3.n_head ≠ 0 ∧
      (construct genW cfgC3).isSome = true := by
  refine ⟨by decide, by decide, by decide⟩

/-- C3 amended: for a configuration with `n_head ≥ 1` whose `n_embd` is
not divisible by `n_head`, construction succeeds (floor division raises
nothing), and the violation instead surfaces at the first forward call:
the concatenated head outputs have width `n_head * (n_embd / n_head) ≠
n_embd`, so the output projection's shape check fails and forward
returns an error. -/
theorem nondvd_forward_fails {g : ℕ → ℕ → ℕ → ℚ} {ν : Ops} {cfg : Config}
    {m : BigramLanguageModel} {ts : List ℕ} (hnh : cfg.n_head ≠ 0)
    (hdvd : ¬ cfg.n_head ∣ cfg.n_embd) (hlayer : 1 ≤ cfg.n_layer)
    (hw : BigramLanguageModel.wf cfg m) (hpos : ∀ z, 0 < ν.exp z)
    (hts : ∀ t ∈ ts, t < cfg.vocab_size) (h1 : 1 ≤ ts.length)
    (hT : ts.length ≤ cfg.block_size) :
    (∃ m0, construct g cfg = some m0 ∧ BigramLanguageModel.wf cfg m0) ∧
      forwardSeq ν cfg m ts = none :=
  ⟨construct_some (Or.inl hnh),
    forwardSeq_none_of_nondvd hw hpos hnh hdvd hlayer hts h1 hT⟩

theorem nondvd_forward_fails_witness :
    (∃ m0, construct genW cfgC3 = some m0 ∧ BigramLanguageModel.wf cfgC3 m0) ∧
      forwardSeq opsW cfgC3 mC3 [0] = none :=
  nondvd_forward_fails (by decide) (by decide) (by decide) mC3_wf
    (fun _ => one_pos) (by decide) (by decide) (by decide)

/-- C4: context-length violation — for every token sequence whose time
dimension exceeds `block_size`, calling forward directly fails (the
position-embedding lookup at index `block_size` raises; forward neither
truncates nor re-validates, it just errors), while the crop performed by
the generation path before each forward call keeps at most `block_size`
tokens (exactly the last `min(block_size, length)`), so generation never
reaches this error. -/
theorem context_length_violation {ν : Ops} {cfg : Config} {m : BigramLanguageModel}
    (hw : BigramLanguageModel.wf cfg m) :
    (∀ ts : List ℕ, cfg.block_size < ts.length → forwardSeq ν cfg m ts = none) ∧
      (∀ l : List ℕ, 1 ≤ cfg.block_size →
        (crop cfg.block_size l).length ≤ cfg.block_size ∧
        (crop cfg.block_size l).length = min cfg.block_size l.length) :=
  ⟨fun _ h => forwardSeq_none_of_long hw h,
    fun l hbs => ⟨by rw [crop_length hbs]; omega, crop_length hbs l⟩⟩

theorem context_length_violation_witness :
    (∀ ts : List ℕ, cfgW.block_size < ts.length → forwardSeq opsW cfgW mW ts = none) ∧
      (∀ l : List ℕ, 1 ≤ cfgW.block_size →
        (crop cfgW.block_size l).length ≤ cfgW.block_size ∧
        (crop cfgW.block_size l).length = min cfgW.block_size l.length) :=
  context_length_violation mW_wf

/-- C5: attention scaling — the raw affinity scores that `Head.forward`
computes are `dot q k * rsqrt C` where `C` is read from the input's
channel width (`B,T,C = x.shape`); on any well-formed input that width
is `n_embd`, so the scale is `rsqrt n_embd` — the head's own output
width `head_size` never enters the scale (the equation below holds for
every head regardless of its `head_size`). -/
theorem attention_scaling_input_width {ν : Ops} {cfg : Config} {x : Mat}
    (hx : WF cfg.n_embd x) (hne : x ≠ []) :
    width x = cfg.n_embd ∧
      ∀ (h : Head) (bs : ℕ), Head.forward ν bs h x =
        ((mapOpt (linApp h.key) x).bind fun k =>
        (mapOpt (linApp h.query) x).bind fun q =>
        if x.length ≤ bs then
          (mapIdxO (fun i row => maskedSoftmaxRow ν.exp (fun j => decide (j ≤ i)) row) 0
              (attnScores ν cfg.n_embd q k)).bind fun wei =>
          (mapOpt (linApp h.value) x).bind fun v =>
          some (wei.map (fun w => weightedSum w v))
        else none) := by
  have hwd := width_of_WF hx hne
  refine ⟨hwd, ?_⟩
  intro h bs
  simp only [Head.forward, hwd]

theorem attention_scaling_input_width_witness :
    width [[0, 0]] = cfgW.n_embd ∧
      ∀ (h : Head) (bs : ℕ), Head.forward opsW bs h [[0, 0]] =
        ((mapOpt (linApp h.key) [[0, 0]]).bind fun k =>
        (mapOpt (linApp h.query) [[0, 0]]).bind fun q =>
        if [[(0 : ℚ), 0]].length ≤ bs then
          (mapIdxO (fun i row => maskedSoftmaxRow opsW.exp (fun j => decide (j ≤ i)) row)
              0 (attnScores opsW cfgW.n_embd q k)).bind fun wei =>
          (mapOpt (linApp h.value) [[0, 0]]).bind fun v =>
          some (wei.map (fun w => weightedSum w v))
        else none) :=
  attention_scaling_input_width (by decide) (by decide)

/-- C7: forward output shape and finiteness — with a well-formed model
from a valid configuration, positive `exp`, every batch row in
vocabulary and `time ≤ block_size`, the batched forward pass returns
(no NaN/Inf: every masked softmax row keeps its diagonal entry, so its
normalizer is positive) logits of shape `(batch, time, vocab_size)`. -/
theorem forward_shape_finite {ν : Ops} {cfg : Config} {m : BigramLanguageModel}
    {tss : List (List ℕ)} (hw : BigramLanguageModel.wf cfg m)
    (hpos : ∀ z, 0 < ν.exp z) (hnh : 1 ≤ cfg.n_head) (hdvd : cfg.n_head ∣ cfg.n_embd)
    (hrows : ∀ ts ∈ tss, (∀ t ∈ ts, t < cfg.vocab_size) ∧ ts.length ≤ cfg.block_size) :
    ∃ Ls, forwardB ν cfg m tss = some Ls ∧ Ls.length = tss.length ∧
      ∀ (b : ℕ) (ts : List ℕ) (L : Mat), tss[b]? = some ts → Ls[b]? = some L →
        L.length = ts.length ∧ ∀ r ∈ L, r.length = cfg.vocab_size := by
  have hrel : ∀ ts ∈ tss, ∃ L, forwardSeq ν cfg m ts = some L ∧
      (L.length = ts.length ∧ ∀ r ∈ L, r.length = cfg.vocab_size) := by
    intro ts hts
    obtain ⟨hv, hb⟩ := hrows ts hts
    obtain ⟨L, hL, h1, h2⟩ := forwardSeq_ok hw hpos hnh hdvd hv hb
    exact ⟨L, hL, h1, h2⟩
  obtain ⟨Ls, hLs, hLslen, hLsrel⟩ := mapOpt_some_rel tss hrel
  exact ⟨Ls, hLs, hLslen, hLsrel⟩

theorem forward_shape_finite_witness :
    ∃ Ls, forwardB opsW cfgW mW [[0, 1]] = some Ls ∧ Ls.length = 1 ∧
      ∀ (b : ℕ) (ts : List ℕ) (L : Mat), [[0, 1]][b]? = some ts → Ls[b]? = some L →
        L.length = ts.length ∧ ∀ r ∈ L, r.length = cfgW.vocab_size :=
  forward_shape_finite mW_wf (fun _ => one_pos) (by decide) (by decide)
    (by
      intro ts hts
      simp only [List.mem_singleton] at hts
      subst hts
      exact ⟨by decide, by decide⟩)

/-- C8: generation sliding window — one generation step depends only on
the cropped context `idx[:, -block_size:]`, whose length is exactly
`min(block_size, current_length)`; two running sequences that agree on
their last `block_size` tokens therefore produce identical next-token
distributions. -/
theorem generation_window {ν : Ops} {cfg : Config} {m : BigramLanguageModel}
    {xs ys : List ℕ} (hbs : 1 ≤ cfg.block_size)
    (h : xs.drop (xs.length - cfg.block_size) = ys.drop (ys.length - cfg.block_size)) :
    (crop cfg.block_size xs).length = min cfg.block_size xs.length ∧
      genStep ν cfg m xs = genStep ν cfg m ys := by
  have hcx : crop cfg.block_size xs = xs.drop (xs.length - cfg.block_size) := by
    unfold crop
    rw [if_neg (by omega)]
  have hcy : crop cfg.block_size ys = ys.drop (ys.length - cfg.block_size) := by
    unfold crop
    rw [if_neg (by omega)]
  refine ⟨crop_length hbs xs, ?_⟩
  have hceq : crop cfg.block_size xs = crop cfg.block_size ys := by
    rw [hcx, hcy, h]
  unfold genStep
  rw [hceq]

theorem generation_window_witness :
    (crop cfgW.block_size [0, 1, 0]).length = min cfgW.block_size [0, 1, 0].length ∧
      genStep opsW cfgW mW [0, 1, 0] = genStep opsW cfgW mW [1, 1, 0] :=
  generation_window (by decide) (by decide)

/-- C1: causality of the forward pass — for every model built from a
valid configuration (dropout sites are the identity, so forward is a
deterministic function of its input), every batch of token sequences
with time ≤ block_size, and every pair of positions `i < j`, changing
the rows at most at position `j` leaves the logits produced at position
`i` of every row unchanged. -/
theorem causal_forward {ν : Ops} {cfg : Config} {m : BigramLanguageModel}
    {tss tss' : List (List ℕ)} {i j : ℕ}
    (hw : BigramLanguageModel.wf cfg m) (hpos : ∀ z, 0 < ν.exp z)
    (hnh : 1 ≤ cfg.n_head) (hdvd : cfg.n_head ∣ cfg.n_embd)
    (hB : tss.length = tss'.length) (hij : i < j)
    (hrows : ∀ (b : ℕ) (ts ts' : List ℕ), tss[b]? = some ts → tss'[b]? = some ts' →
      ts.length = ts'.length ∧ ts.length ≤ cfg.block_size ∧
      (∀ t ∈ ts, t < cfg.vocab_size) ∧ (∀ t ∈ ts', t < cfg.vocab_size) ∧
      ∀ p : ℕ, p ≠ j → ts[p]? = ts'[p]?) :
    ∃ Ls Ls', forwardB ν cfg m tss = some Ls ∧ forwardB ν cfg m tss' = some Ls' ∧
      ∀ (b : ℕ) (L L' : Mat), Ls[b]? = some L → Ls'[b]? = some L' →
        L[i]? = L'[i]? := by
  have hpair : ∀ (b : ℕ) (ts : List ℕ), tss[b]? = some ts →
      ∃ ts', tss'[b]? = some ts' := by
    intro b ts hts
    have hb := (List.getElem?_eq_some_iff.1 hts).1
    cases h' : tss'[b]? with
    | none =>
        exfalso
        rw [List.getElem?_eq_none_iff] at h'
        omega
    | some ts' => exact ⟨ts', rfl⟩
  have hpair' : ∀ (b : ℕ) (ts' : List ℕ), tss'[b]? = some ts' →
      ∃ ts, tss[b]? = some ts := by
    intro b ts' hts'
    have hb := (List.getElem?_eq_some_iff.1 hts').1
    cases h' : tss[b]? with
    | none =>
        exfalso
        rw [List.getElem?_eq_none_iff] at h'
        omega
    | some ts => exact ⟨ts, rfl⟩
  have hok : ∀ ts ∈ tss, ∃ L, forwardSeq ν cfg m ts = some L ∧ True := by
    intro ts hts
    obtain ⟨b, hb⟩ := List.mem_iff_getElem?.1 hts
    obtain ⟨ts', hb'⟩ := hpair b ts hb
    obtain ⟨_, hTb, hval, _, _⟩ := hrows b ts ts' hb hb'
    obtain ⟨L, hL, _, _⟩ := forwardSeq_ok hw hpos hnh hdvd hval hTb
    exact ⟨L, hL, trivial⟩
  have hok' : ∀ ts' ∈ tss', ∃ L, forwardSeq ν cfg m ts' = some L ∧ True := by
    intro ts' hts'
    obtain ⟨b, hb'⟩ := List.mem_iff_getElem?.1 hts'
    obtain ⟨ts, hb⟩ := hpair' b ts' hb'
    obtain ⟨hlen, hTb, _, hval', _⟩ := hrows b ts ts' hb hb'
    obtain ⟨L, hL, _, _⟩ := forwardSeq_ok hw hpos hnh hdvd hval' (by rw [← hlen]; exact hTb)
    exact ⟨L, hL, trivial⟩
  obtain ⟨Ls, hLs, _, _⟩ := mapOpt_some_of hok
  obtain ⟨Ls', hLs', _, _⟩ := mapOpt_some_of hok'
  refine ⟨Ls, Ls', hLs, hLs', ?_⟩
  intro b L L' hL hL'
  have hLb := mapOpt_getElem? hLs b
  have hLb' := mapOpt_getElem? hLs' b
  rw [hL] at hLb
  rw [hL'] at hLb'
  cases hts : tss[b]? with
  | none => rw [hts] at hLb; simp at hLb
  | some ts =>
      cases hts' : tss'[b]? with
      | none => rw [hts'] at hLb'; simp at hLb'
      | some ts' =>
          rw [hts, Option.some_bind] at hLb
          rw [hts', Option.some_bind] at hLb'
          obtain ⟨hlen, _, _, _, hdiff⟩ := hrows b ts ts' hts hts'
          have hag : agreeUpTo i ts ts' := by
            intro t ht
            exact hdiff t (by omega)
          exact (forwardSeq_agree hLb.symm hLb'.symm hlen hag).2 i (le_refl i)

theorem causal_forward_witness :
    ∃ Ls Ls', forwardB opsW cfgW mW [[0, 0]] = some Ls ∧
      forwardB opsW cfgW mW [[0, 1]] = some Ls' ∧
      ∀ (b : ℕ) (L L' : Mat), Ls[b]? = some L → Ls'[b]? = some L' →
        L[0]? = L'[0]? :=
  causal_forward mW_wf (fun _ => one_pos) (by decide) (by decide) rfl Nat.zero_lt_one
    (by
      intro b ts ts' hts hts'
      cases b with
      | zero =>
          simp only [List.getElem?_cons_zero, Option.some.injEq] at hts hts'
          subst hts
          subst hts'
          refine ⟨rfl, by decide, by decide, by decide, ?_⟩
          intro p hp
          match p, hp with
          | 0, _ => rfl
          | 1, hp => exact absurd rfl hp
          | Nat.succ (Nat.succ p), _ => rfl
      | succ b => simp at hts)

/-- C2: generation length and prefix preservation — for every batch of
valid starting rows of length ≥ 1 and every `max_new_tokens = k`,
`generate` succeeds and returns rows of length `L + k` whose first `L`
tokens equal the input row exactly; each iteration appends exactly one
sampled token and the loop never terminates early. -/
theorem generate_length_and_prefix_preservation {ν : Ops} {cfg : Config} {m : BigramLanguageModel}
    {sample : List ℚ → ℕ} {tss : List (List ℕ)} {k : ℕ}
    (hw : BigramLanguageModel.wf cfg m) (hpos : ∀ z, 0 < ν.exp z)
    (hnh : 1 ≤ cfg.n_head) (hdvd : cfg.n_head ∣ cfg.n_embd)
    (hbs : 1 ≤ cfg.block_size) (hvoc : 1 ≤ cfg.vocab_size)
    (hsamp : ∀ ps : List ℚ, ps ≠ [] → sample ps < ps.length)
    (hrows : ∀ ts ∈ tss, (∀ t ∈ ts, t < cfg.vocab_size) ∧ 1 ≤ ts.length) :
    ∃ outs, generate ν cfg m sample tss k = some outs ∧ outs.length = tss.length ∧
      ∀ (b : ℕ) (ts out : List ℕ), tss[b]? = some ts → outs[b]? = some out →
        out.length = ts.length + k ∧ out.take ts.length = ts := by
  have hrel : ∀ ts ∈ tss, ∃ out, generate1 ν cfg m sample ts k = some out ∧
      (out.length = ts.length + k ∧ out.take ts.length = ts) := by
    intro ts hts
    obtain ⟨hv, h1⟩ := hrows ts hts
    obtain ⟨out, ho, h2, h3⟩ := generate1_ok hw hpos hnh hdvd hbs hvoc hsamp k ts hv h1
    exact ⟨out, ho, h2, h3⟩
  obtain ⟨outs, houts, hlen, hrel'⟩ := mapOpt_some_rel tss hrel
  exact ⟨outs, houts, hlen, hrel'⟩

theorem generate_shape_witness :
    ∃ outs, generate opsW cfgW mW (fun _ => 0) [[0]] 2 = some outs ∧
      outs.length = 1 ∧
      ∀ (b : ℕ) (ts out : List ℕ), [[0]][b]? = some ts → outs[b]? = some out →
        out.length = ts.length + 2 ∧ out.take ts.length = ts :=
  generate_length_and_prefix_preservation mW_wf (fun _ => one_pos) (by decide) (by decide) (by decide)
    (by decide)
    (by
      intro ps hne
      cases ps with
      | nil => exact absurd rfl hne
      | cons a l => simp)
    (by
      intro ts hts
      simp only [List.mem_singleton] at hts
      subst hts
      exact ⟨by decide, by decide⟩)

/-- C9: missing targets are not an error — with no targets, forward
succeeds, returns the logits, and the loss is absent (`none`); with
targets supplied, the loss is present and equals the categorical
cross-entropy computed on the batch×time-flattened logits and targets. -/
theorem targets_optional_loss {ν : Ops} {cfg : Config} {m : BigramLanguageModel}
    {tss tgs : List (List ℕ)} (hw : BigramLanguageModel.wf cfg m)
    (hpos : ∀ z, 0 < ν.exp z) (hnh : 1 ≤ cfg.n_head) (hdvd : cfg.n_head ∣ cfg.n_embd)
    (hrows : ∀ ts ∈ tss, (∀ t ∈ ts, t < cfg.vocab_size) ∧ ts.length ≤ cfg.block_size)
    (htglen : tgs.flatten.length = tss.flatten.length)
    (htgval : ∀ t ∈ tgs.flatten, t < cfg.vocab_size) :
    ∃ Ls, forwardB ν cfg m tss = some Ls ∧
      forward ν cfg m tss none = some (LogitsOut.unflat Ls, none) ∧
      ∃ loss, crossEntropy ν Ls.flatten tgs.flatten = some loss ∧
        forward ν cfg m tss (some tgs) = some (LogitsOut.flat Ls.flatten, some loss) := by
  obtain ⟨Ls, loss, h1, _, _, h4, h5, h6, _, _⟩ :=
    forward_cases_ok hw hpos hnh hdvd hrows htglen htgval
  exact ⟨Ls, h1, h4, loss, h5, h6⟩

theorem targets_optional_loss_witness :
    ∃ Ls, forwardB opsW cfgW mW [[0, 1]] = some Ls ∧
      forward opsW cfgW mW [[0, 1]] none = some (LogitsOut.unflat Ls, none) ∧
      ∃ loss, crossEntropy opsW Ls.flatten [[1, 0]].flatten = some loss ∧
        forward opsW cfgW mW [[0, 1]] (some [[1, 0]]) =
          some (LogitsOut.flat Ls.flatten, some loss) :=
  targets_optional_loss mW_wf (fun _ => one_pos) (by decide) (by decide)
    (by
      intro ts hts
      simp only [List.mem_singleton] at hts
      subst hts
      exact ⟨by decide, by decide⟩)
    (by decide) (by decide)

/-- C10: the shape of the returned logits depends on whether targets
are supplied — without targets forward returns the three-dimensional
`(batch, time, vocab_size)` logits; with targets it returns the
flattened two-dimensional `(batch*time, vocab_size)` logits, because
the `view(B*T, C)` performed for the loss rebinds the returned value. -/
theorem logits_shape_depends_on_targets {ν : Ops} {cfg : Config}
    {m : BigramLanguageModel} {tss tgs : List (List ℕ)} {T : ℕ}
    (hw : BigramLanguageModel.wf cfg m) (hpos : ∀ z, 0 < ν.exp z)
    (hnh : 1 ≤ cfg.n_head) (hdvd : cfg.n_head ∣ cfg.n_embd)
    (hT : ∀ ts ∈ tss, ts.length = T) (hTb : T ≤ cfg.block_size)
    (hval : ∀ ts ∈ tss, ∀ t ∈ ts, t < cfg.vocab_size)
    (htgB : tgs.length = tss.length) (htgT : ∀ tg ∈ tgs, tg.length = T)
    (htgval : ∀ t ∈ tgs.flatten, t < cfg.vocab_size) :
    ∃ Ls, forward ν cfg m tss none = some (LogitsOut.unflat Ls, none) ∧
      Ls.length = tss.length ∧
      (∀ L ∈ Ls, L.length = T ∧ ∀ r ∈ L, r.length = cfg.vocab_size) ∧
      ∃ loss, forward ν cfg m tss (some tgs) =
          some (LogitsOut.flat Ls.flatten, some loss) ∧
        Ls.flatten.length = tss.length * T ∧
        ∀ r ∈ Ls.flatten, r.length = cfg.vocab_size := by
  have hrows : ∀ ts ∈ tss, (∀ t ∈ ts, t < cfg.vocab_size) ∧ ts.length ≤ cfg.block_size :=
    fun ts hts => ⟨hval ts hts, by rw [hT ts hts]; exact hTb⟩
  have htglen : tgs.flatten.length = tss.flatten.length := by
    rw [List.length_flatten, List.length_flatten, sum_map_const htgT, sum_map_const hT,
      htgB]
  obtain ⟨Ls, loss, h1, h2, h3, h4, h5, h6, h7, h8⟩ :=
    forward_cases_ok hw hpos hnh hdvd hrows htglen htgval
  refine ⟨Ls, h4, h2, ?_, loss, h6, ?_, h8⟩
  · intro L hL
    obtain ⟨n, hn⟩ := List.mem_iff_getElem?.1 hL
    have hts' : ∃ ts, tss[n]? = some ts := by
      cases h : tss[n]? with
      | none =>
          exfalso
          rw [List.getElem?_eq_none_iff] at h
          have := (List.getElem?_eq_some_iff.1 hn).1
          omega
      | some ts => exact ⟨ts, rfl⟩
    obtain ⟨ts, hts⟩ := hts'
    obtain ⟨hl1, hl2⟩ := h3 n ts L hts hn
    exact ⟨by rw [hl1, hT ts (List.getElem?_mem hts)], hl2⟩
  · rw [h7, List.length_flatten, sum_map_const hT]

theorem logits_shape_depends_on_targets_witness :
    ∃ Ls, forward opsW cfgW mW [[0, 1]] none = some (LogitsOut.unflat Ls, none) ∧
      Ls.length = 1 ∧
      (∀ L ∈ Ls, L.length = 2 ∧ ∀ r ∈ L, r.length = cfgW.vocab_size) ∧
      ∃ loss, forward opsW cfgW mW [[0, 1]] (some [[1, 0]]) =
          some (LogitsOut.flat Ls.flatten, some loss) ∧
        Ls.flatten.length = 1 * 2 ∧
        ∀ r ∈ Ls.flatten, r.length = cfgW.vocab_size :=
  logits_shape_depends_on_targets mW_wf (fun _ => one_pos) (by decide) (by decide)
    (by
      intro ts hts
      simp only [List.mem_singleton] at hts
      subst hts
      rfl)
    (by decide)
    (by
      intro ts hts
      simp only [List.mem_singleton] at hts
      subst hts
      decide)
    (by decide)
    (by
      intro tg htg
      simp only [List.mem_singleton] at htg
      subst htg
      rfl)
    (by decide)

end KleineGPT
